import Mathlib

/-!
Verification of the Aozora Bunko text-cleaning pipeline.

The Python sources (`aozora.py`, `app.py`) implement a text normalizer
`_strip_ruby_and_notes` plus an archive-extraction step `_extract_text_path`.
Strings are modelled as `List Char` (a Python `str` is a sequence of Unicode
code points).  The regex and string primitives used by the source
(`re.split(r"\-{5,}", ...)`, `str.split("底本：", 1)`, `re.sub(r"《.+?》", "")`,
`re.sub(r"［＃.+?］", "")`, `str.replace`, `re.sub(r"\n{3,}", "\n\n")`,
`str.strip()`) are embedded as executable functions below.  Recursions that
consume non-structural suffixes carry an explicit fuel argument (initialised
with the list length) so that every definition reduces in the kernel.
-/

namespace Aozora

/-- U+3000, the ideographic space removed by the normalizer. -/
def ideographicSpace : Char := Char.ofNat 0x3000

/-- `leadsWith pat l` is true when `pat` is an initial segment of `l`
(the semantics of Python `str.startswith`, used to model substring search). -/
def leadsWith : List Char → List Char → Bool
  | [], _ => true
  | _ :: _, [] => false
  | p :: ps, c :: cs => p = c && leadsWith ps cs

/-- `containsSub pat l` is true when `pat` occurs contiguously inside `l`
(the semantics of Python `pat in l`). -/
def containsSub (pat : List Char) : List Char → Bool
  | [] => leadsWith pat []
  | c :: rest => leadsWith pat (c :: rest) || containsSub pat rest

/-- Count the leading hyphens of a list, returning the count and the rest.
Used to model the greedy regex `\-{5,}` of `re.split`. -/
def countHyphens : List Char → Nat × List Char
  | [] => (0, [])
  | c :: rest =>
    if c = '-' then
      let p := countHyphens rest
      (p.1 + 1, p.2)
    else (0, c :: rest)

theorem countHyphens_length (l : List Char) :
    (countHyphens l).2.length + (countHyphens l).1 = l.length := by
  induction l with
  | nil => simp [countHyphens]
  | cons c rest ih =>
    by_cases h : c = '-' <;> simp [countHyphens, h] <;> omega

theorem countHyphens_decomp (l : List Char) :
    List.replicate (countHyphens l).1 '-' ++ (countHyphens l).2 = l := by
  induction l with
  | nil => simp [countHyphens]
  | cons c rest ih =>
    by_cases h : c = '-'
    · simp [countHyphens, h, List.replicate_succ] at ih ⊢
      exact ih
    · simp [countHyphens, h]

/-- Prepend characters onto the first segment of a split result. -/
def consHead (pre : List Char) : List (List Char) → List (List Char)
  | [] => [pre]
  | s :: ss => (pre ++ s) :: ss

/-- Fueled worker for `splitHyphens`. -/
def splitHyphensGo : Nat → List Char → List (List Char)
  | 0, l => [l]
  | _ + 1, [] => [[]]
  | fuel + 1, c :: rest =>
    if c = '-' then
      let p := countHyphens (c :: rest)
      if 5 ≤ p.1 then [] :: splitHyphensGo fuel p.2
      else consHead (List.replicate p.1 '-') (splitHyphensGo fuel p.2)
    else consHead [c] (splitHyphensGo fuel rest)

/-- `re.split(r"\-{5,}", text)`: split on maximal runs of 5-or-more hyphens.
The greedy regex always consumes a whole hyphen run, so separators are
exactly the maximal runs of length at least 5. -/
def splitHyphens (l : List Char) : List (List Char) :=
  splitHyphensGo l.length l

/-- Step 1 of `_strip_ruby_and_notes`: `sections = re.split(r"\-{5,}", text);
if len(sections) >= 3: text = sections[2]`. -/
def frontMatter (l : List Char) : List Char :=
  let sections := splitHyphens l
  if h : 3 ≤ sections.length then sections.get ⟨2, by omega⟩ else l

/-- The colophon marker `底本：`. -/
def colMarker : List Char := ['底', '本', '：']

/-- Step 2: `text.split("底本：", 1)[0]` keeps the prefix before the first
occurrence of the marker. -/
def truncColophon : List Char → List Char
  | [] => []
  | c :: rest =>
    if leadsWith colMarker (c :: rest) then []
    else c :: truncColophon rest

/-- Scan for the closing `》` of a ruby span: succeeds at the first `》`,
fails at a newline or the end of input (Python `.` does not match `\n`). -/
def rubyScan : List Char → Option (List Char)
  | [] => none
  | c :: rest =>
    if c = '》' then some rest
    else if c = '\n' then none
    else rubyScan rest

/-- Given the text following a `《`, decide whether the non-greedy regex
`《.+?》` matches here; on success return the remainder after the match.
The content needs at least one character, which must not be a newline. -/
def rubyMatchEnd : List Char → Option (List Char)
  | [] => none
  | c :: rest => if c = '\n' then none else rubyScan rest

theorem rubyScan_length {l rem : List Char} (h : rubyScan l = some rem) :
    rem.length < l.length := by
  induction l with
  | nil => simp [rubyScan] at h
  | cons c rest ih =>
    by_cases h1 : c = '》'
    · simp [rubyScan, h1] at h
      simp [← h]
    · by_cases h2 : c = '\n'
      · simp [rubyScan, h1, h2] at h
      · simp [rubyScan, h1, h2] at h
        have := ih h
        simp
        omega

theorem rubyMatchEnd_length {l rem : List Char} (h : rubyMatchEnd l = some rem) :
    rem.length < l.length := by
  cases l with
  | nil => simp [rubyMatchEnd] at h
  | cons c rest =>
    by_cases h2 : c = '\n'
    · simp [rubyMatchEnd, h2] at h
    · simp [rubyMatchEnd, h2] at h
      have := rubyScan_length h
      simp
      omega

/-- Fueled worker for `removeRuby`. -/
def removeRubyGo : Nat → List Char → List Char
  | 0, l => l
  | _ + 1, [] => []
  | fuel + 1, c :: rest =>
    if c = '《' then
      match rubyMatchEnd rest with
      | some rem => removeRubyGo fuel rem
      | none => c :: removeRubyGo fuel rest
    else c :: removeRubyGo fuel rest

/-- Step 3: `re.sub(r"《.+?》", "", text)`, removing every non-greedy ruby
match in a single left-to-right pass. -/
def removeRuby (l : List Char) : List Char :=
  removeRubyGo l.length l

/-- Scan for the closing `］` of an editorial note. -/
def noteScan : List Char → Option (List Char)
  | [] => none
  | c :: rest =>
    if c = '］' then some rest
    else if c = '\n' then none
    else noteScan rest

/-- Given the text following a `［`, decide whether `［＃.+?］` matches here:
the next character must be `＃`, then at least one non-newline content
character, then the first `］`. -/
def noteMatchEnd : List Char → Option (List Char)
  | [] => none
  | [_] => none
  | c :: d :: rest =>
    if c = '＃' then
      if d = '\n' then none else noteScan rest
    else none

theorem noteScan_length {l rem : List Char} (h : noteScan l = some rem) :
    rem.length < l.length := by
  induction l with
  | nil => simp [noteScan] at h
  | cons c rest ih =>
    by_cases h1 : c = '］'
    · simp [noteScan, h1] at h
      simp [← h]
    · by_cases h2 : c = '\n'
      · simp [noteScan, h1, h2] at h
      · simp [noteScan, h1, h2] at h
        have := ih h
        simp
        omega

theorem noteMatchEnd_length {l rem : List Char} (h : noteMatchEnd l = some rem) :
    rem.length < l.length := by
  match l with
  | [] => simp [noteMatchEnd] at h
  | [c] => simp [noteMatchEnd] at h
  | c :: d :: rest =>
    by_cases h1 : c = '＃'
    · by_cases h2 : d = '\n'
      · simp [noteMatchEnd, h1, h2] at h
      · simp [noteMatchEnd, h1, h2] at h
        have := noteScan_length h
        simp
        omega
    · simp [noteMatchEnd, h1] at h

/-- Fueled worker for `removeNotes`. -/
def removeNotesGo : Nat → List Char → List Char
  | 0, l => l
  | _ + 1, [] => []
  | fuel + 1, c :: rest =>
    if c = '［' then
      match noteMatchEnd rest with
      | some rem => removeNotesGo fuel rem
      | none => c :: removeNotesGo fuel rest
    else c :: removeNotesGo fuel rest

/-- Step 4: `re.sub(r"［＃.+?］", "", text)`. -/
def removeNotes (l : List Char) : List Char :=
  removeNotesGo l.length l

/-- Step 5: `text.replace("　", "")` removes every ideographic space. -/
def removeIdeo (l : List Char) : List Char :=
  l.filter (fun c => !(c = ideographicSpace : Bool))

/-- Step 6: `text.replace("\r\n", "\n")`, a single left-to-right pass that
replaces each non-overlapping CRLF pair by a lone LF. -/
def crlf : List Char → List Char
  | [] => []
  | [c] => [c]
  | a :: b :: rest =>
    if a = '\r' ∧ b = '\n' then '\n' :: crlf rest
    else a :: crlf (b :: rest)

/-- Count the leading line feeds of a list. -/
def countLF : List Char → Nat × List Char
  | [] => (0, [])
  | c :: rest =>
    if c = '\n' then
      let p := countLF rest
      (p.1 + 1, p.2)
    else (0, c :: rest)

theorem countLF_length (l : List Char) :
    (countLF l).2.length + (countLF l).1 = l.length := by
  induction l with
  | nil => simp [countLF]
  | cons c rest ih =>
    by_cases h : c = '\n' <;> simp [countLF, h] <;> omega

theorem countLF_decomp (l : List Char) :
    List.replicate (countLF l).1 '\n' ++ (countLF l).2 = l := by
  induction l with
  | nil => simp [countLF]
  | cons c rest ih =>
    by_cases h : c = '\n'
    · simp [countLF, h, List.replicate_succ] at ih ⊢
      exact ih
    · simp [countLF, h]

/-- Fueled worker for `collapseLF`. -/
def collapseLFGo : Nat → List Char → List Char
  | 0, l => l
  | _ + 1, [] => []
  | fuel + 1, c :: rest =>
    if c = '\n' then
      let p := countLF (c :: rest)
      (if 3 ≤ p.1 then ['\n', '\n'] else List.replicate p.1 '\n') ++
        collapseLFGo fuel p.2
    else c :: collapseLFGo fuel rest

/-- Step 7: `re.sub(r"\n{3,}", "\n\n", text)`: every maximal run of 3-or-more
line feeds becomes exactly two. -/
def collapseLF (l : List Char) : List Char :=
  collapseLFGo l.length l

/-- The set of characters stripped by Python `str.strip()` with no argument
(all code points for which `str.isspace()` holds). -/
def isPySpace (c : Char) : Bool :=
  (9 ≤ c.toNat && c.toNat ≤ 13) || (28 ≤ c.toNat && c.toNat ≤ 31) ||
  c.toNat = 32 || c.toNat = 0x85 || c.toNat = 0xA0 || c.toNat = 0x1680 ||
  (0x2000 ≤ c.toNat && c.toNat ≤ 0x200A) || c.toNat = 0x2028 ||
  c.toNat = 0x2029 || c.toNat = 0x202F || c.toNat = 0x205F ||
  c.toNat = 0x3000

/-- Step 8: `text.strip()` removes leading and trailing whitespace. -/
def pyStrip (l : List Char) : List Char :=
  ((l.dropWhile isPySpace).reverse.dropWhile isPySpace).reverse

/-- `l` is free of line feeds. -/
def noLF (l : List Char) : Prop := ∀ c ∈ l, c ≠ '\n'

instance (l : List Char) : Decidable (noLF l) :=
  inferInstanceAs (Decidable (∀ c ∈ l, c ≠ '\n'))

/-- `_strip_ruby_and_notes` from `aozora.py` (lines 52-62): the eight
cleaning steps applied in source order. -/
def stripRubyAndNotes (text : List Char) : List Char :=
  pyStrip (collapseLF (crlf (removeIdeo (removeNotes (removeRuby
    (truncColophon (frontMatter text)))))))

/-- `_strip_ruby_and_notes` from `app.py` (lines 58-68); the body is a
verbatim duplicate of the `aozora.py` function, so its embedding repeats the
same step sequence over the same stdlib-primitive models. -/
def appStripRubyAndNotes (text : List Char) : List Char :=
  pyStrip (collapseLF (crlf (removeIdeo (removeNotes (removeRuby
    (truncColophon (frontMatter text)))))))

/-! ### Characterisation of the substring primitives -/

theorem leadsWith_iff {pat l : List Char} :
    leadsWith pat l = true ↔ ∃ t, l = pat ++ t := by
  induction pat generalizing l with
  | nil => simp [leadsWith]
  | cons p ps ih =>
    cases l with
    | nil => simp [leadsWith]
    | cons c cs =>
      simp only [leadsWith, Bool.and_eq_true, decide_eq_true_eq, ih,
        List.cons_append, List.cons.injEq]
      constructor
      · rintro ⟨h1, t, h2⟩
        exact ⟨t, h1.symm, h2⟩
      · rintro ⟨t, h1, h2⟩
        exact ⟨h1.symm, t, h2⟩

theorem leadsWith_append {pat l t : List Char} (h : leadsWith pat l = true) :
    leadsWith pat (l ++ t) = true := by
  rcases leadsWith_iff.mp h with ⟨u, rfl⟩
  exact leadsWith_iff.mpr ⟨u ++ t, by simp⟩

theorem containsSub_iff {pat l : List Char} :
    containsSub pat l = true ↔ ∃ u v, l = u ++ pat ++ v := by
  induction l with
  | nil =>
    simp only [containsSub, leadsWith_iff]
    constructor
    · rintro ⟨t, h⟩
      exact ⟨[], t, by simpa using h⟩
    · rintro ⟨u, v, h⟩
      rcases List.append_eq_nil.mp h.symm with ⟨hup, hv⟩
      rcases List.append_eq_nil.mp hup with ⟨hu, hp⟩
      exact ⟨[], by simp [hp]⟩
  | cons c rest ih =>
    simp only [containsSub, Bool.or_eq_true, leadsWith_iff, ih]
    constructor
    · rintro (⟨t, h⟩ | ⟨u, v, h⟩)
      · exact ⟨[], t, by simpa using h⟩
      · exact ⟨c :: u, v, by simp [h]⟩
    · rintro ⟨u, v, h⟩
      cases u with
      | nil => exact Or.inl ⟨v, by simpa using h⟩
      | cons d u' =>
        simp only [List.cons_append, List.cons.injEq] at h
        exact Or.inr ⟨u', v, h.2⟩

theorem containsSub_append_right {pat u v : List Char}
    (h : containsSub pat v = true) : containsSub pat (u ++ v) = true := by
  rcases containsSub_iff.mp h with ⟨a, b, rfl⟩
  exact containsSub_iff.mpr ⟨u ++ a, b, by simp⟩

theorem containsSub_middle {pat u m v : List Char}
    (h : containsSub pat m = true) : containsSub pat (u ++ m ++ v) = true := by
  rcases containsSub_iff.mp h with ⟨a, b, rfl⟩
  exact containsSub_iff.mpr ⟨u ++ a, b ++ v, by simp⟩

/-! ### Fuel sufficiency and unfolding equations -/

theorem removeRubyGo_fuel :
    ∀ f1 f2 l, l.length ≤ f1 → l.length ≤ f2 →
      removeRubyGo f1 l = removeRubyGo f2 l := by
  intro f1
  induction f1 with
  | zero =>
    intro f2 l h1 _
    have : l = [] := List.length_eq_zero.mp (Nat.le_zero.mp h1)
    subst this
    cases f2 <;> rfl
  | succ f ih =>
    intro f2 l h1 h2
    cases l with
    | nil => cases f2 <;> rfl
    | cons c rest =>
      cases f2 with
      | zero => simp at h2
      | succ g =>
        simp only [List.length_cons, Nat.succ_le_succ_iff] at h1 h2
        by_cases hc : c = '《'
        · cases hm : rubyMatchEnd rest with
          | some rem =>
            have hlen := rubyMatchEnd_length hm
            simp only [removeRubyGo, hc, if_true, hm]
            exact ih g rem (by omega) (by omega)
          | none =>
            simp only [removeRubyGo, hc, if_true, hm]
            rw [ih g rest h1 h2]
        · simp only [removeRubyGo, hc, if_false]
          rw [ih g rest h1 h2]

theorem removeRuby_nil : removeRuby [] = [] := rfl

theorem removeRuby_match {rest rem : List Char}
    (hm : rubyMatchEnd rest = some rem) :
    removeRuby ('《' :: rest) = removeRuby rem := by
  have hlen := rubyMatchEnd_length hm
  show removeRubyGo (rest.length + 1) ('《' :: rest) = removeRuby rem
  simp only [removeRubyGo, if_true, hm]
  exact removeRubyGo_fuel _ _ rem (by omega) (by omega)

theorem removeRuby_nomatch {c : Char} {rest : List Char}
    (h : c ≠ '《' ∨ rubyMatchEnd rest = none) :
    removeRuby (c :: rest) = c :: removeRuby rest := by
  show removeRubyGo (rest.length + 1) (c :: rest) = c :: removeRuby rest
  by_cases hc : c = '《'
  · rcases h with h | h
    · exact absurd hc h
    · simp only [removeRubyGo, hc, if_true, h]
      rfl
  · simp only [removeRubyGo, hc, if_false]
    rfl

theorem removeNotesGo_fuel :
    ∀ f1 f2 l, l.length ≤ f1 → l.length ≤ f2 →
      removeNotesGo f1 l = removeNotesGo f2 l := by
  intro f1
  induction f1 with
  | zero =>
    intro f2 l h1 _
    have : l = [] := List.length_eq_zero.mp (Nat.le_zero.mp h1)
    subst this
    cases f2 <;> rfl
  | succ f ih =>
    intro f2 l h1 h2
    cases l with
    | nil => cases f2 <;> rfl
    | cons c rest =>
      cases f2 with
      | zero => simp at h2
      | succ g =>
        simp only [List.length_cons, Nat.succ_le_succ_iff] at h1 h2
        by_cases hc : c = '［'
        · cases hm : noteMatchEnd rest with
          | some rem =>
            have hlen := noteMatchEnd_length hm
            simp only [removeNotesGo, hc, if_true, hm]
            exact ih g rem (by omega) (by omega)
          | none =>
            simp only [removeNotesGo, hc, if_true, hm]
            rw [ih g rest h1 h2]
        · simp only [removeNotesGo, hc, if_false]
          rw [ih g rest h1 h2]

theorem removeNotes_nil : removeNotes [] = [] := rfl

theorem removeNotes_match {rest rem : List Char}
    (hm : noteMatchEnd rest = some rem) :
    removeNotes ('［' :: rest) = removeNotes rem := by
  have hlen := noteMatchEnd_length hm
  show removeNotesGo (rest.length + 1) ('［' :: rest) = removeNotes rem
  simp only [removeNotesGo, if_true, hm]
  exact removeNotesGo_fuel _ _ rem (by omega) (by omega)

theorem removeNotes_nomatch {c : Char} {rest : List Char}
    (h : c ≠ '［' ∨ noteMatchEnd rest = none) :
    removeNotes (c :: rest) = c :: removeNotes rest := by
  show removeNotesGo (rest.length + 1) (c :: rest) = c :: removeNotes rest
  by_cases hc : c = '［'
  · rcases h with h | h
    · exact absurd hc h
    · simp only [removeNotesGo, hc, if_true, h]
      rfl
  · simp only [removeNotesGo, hc, if_false]
    rfl

theorem countLF_pos {rest : List Char} : 1 ≤ (countLF ('\n' :: rest)).1 := by
  simp [countLF]

theorem collapseLFGo_fuel :
    ∀ f1 f2 l, l.length ≤ f1 → l.length ≤ f2 →
      collapseLFGo f1 l = collapseLFGo f2 l := by
  intro f1
  induction f1 with
  | zero =>
    intro f2 l h1 _
    have : l = [] := List.length_eq_zero.mp (Nat.le_zero.mp h1)
    subst this
    cases f2 <;> rfl
  | succ f ih =>
    intro f2 l h1 h2
    cases l with
    | nil => cases f2 <;> rfl
    | cons c rest =>
      cases f2 with
      | zero => simp at h2
      | succ g =>
        simp only [List.length_cons, Nat.succ_le_succ_iff] at h1 h2
        by_cases hc : c = '\n'
        · have hlen := countLF_length (c :: rest)
          have hpos : 1 ≤ (countLF (c :: rest)).1 := by
            subst hc; exact countLF_pos
          simp only [collapseLFGo, hc, if_true]
          rw [ih g (countLF ('\n' :: rest)).2 (by subst hc; simp at hlen; omega)
                (by subst hc; simp at hlen; omega)]
        · simp only [collapseLFGo, hc, if_false]
          rw [ih g rest h1 h2]

theorem collapseLF_nil : collapseLF [] = [] := rfl

theorem collapseLF_cons_ne {c : Char} {rest : List Char} (h : c ≠ '\n') :
    collapseLF (c :: rest) = c :: collapseLF rest := by
  show collapseLFGo (rest.length + 1) (c :: rest) = c :: collapseLF rest
  simp only [collapseLFGo, h, if_false]
  rfl

theorem collapseLF_cons_lf {rest : List Char} :
    collapseLF ('\n' :: rest) =
      (if 3 ≤ (countLF ('\n' :: rest)).1 then ['\n', '\n']
       else List.replicate (countLF ('\n' :: rest)).1 '\n') ++
      collapseLF (countLF ('\n' :: rest)).2 := by
  have hlen := countLF_length ('\n' :: rest)
  have hpos : 1 ≤ (countLF ('\n' :: rest)).1 := countLF_pos
  show collapseLFGo (rest.length + 1) ('\n' :: rest) = _
  simp only [collapseLFGo, if_true]
  rw [collapseLFGo_fuel rest.length (countLF ('\n' :: rest)).2.length
        (countLF ('\n' :: rest)).2 (by simp at hlen; omega) (by omega)]
  rfl

theorem countHyphens_pos {rest : List Char} :
    1 ≤ (countHyphens ('-' :: rest)).1 := by
  simp [countHyphens]

theorem splitHyphensGo_fuel :
    ∀ f1 f2 l, l.length ≤ f1 → l.length ≤ f2 →
      splitHyphensGo f1 l = splitHyphensGo f2 l := by
  intro f1
  induction f1 with
  | zero =>
    intro f2 l h1 _
    have : l = [] := List.length_eq_zero.mp (Nat.le_zero.mp h1)
    subst this
    cases f2 <;> rfl
  | succ f ih =>
    intro f2 l h1 h2
    cases l with
    | nil => cases f2 <;> rfl
    | cons c rest =>
      cases f2 with
      | zero => simp at h2
      | succ g =>
        simp only [List.length_cons, Nat.succ_le_succ_iff] at h1 h2
        by_cases hc : c = '-'
        · have hlen := countHyphens_length (c :: rest)
          have hpos : 1 ≤ (countHyphens (c :: rest)).1 := by
            subst hc; exact countHyphens_pos
          simp only [splitHyphensGo, hc, if_true]
          rw [ih g (countHyphens ('-' :: rest)).2 (by subst hc; simp at hlen; omega)
                (by subst hc; simp at hlen; omega)]
        · simp only [splitHyphensGo, hc, if_false]
          rw [ih g rest h1 h2]

theorem splitHyphens_nil : splitHyphens [] = [[]] := rfl

theorem splitHyphens_cons_ne {c : Char} {rest : List Char} (h : c ≠ '-') :
    splitHyphens (c :: rest) = consHead [c] (splitHyphens rest) := by
  show splitHyphensGo (rest.length + 1) (c :: rest) = _
  simp only [splitHyphensGo, h, if_false]
  rfl

theorem splitHyphens_cons_hyphen {rest : List Char} :
    splitHyphens ('-' :: rest) =
      (if 5 ≤ (countHyphens ('-' :: rest)).1
       then [] :: splitHyphens (countHyphens ('-' :: rest)).2
       else consHead (List.replicate (countHyphens ('-' :: rest)).1 '-')
              (splitHyphens (countHyphens ('-' :: rest)).2)) := by
  have hlen := countHyphens_length ('-' :: rest)
  have hpos : 1 ≤ (countHyphens ('-' :: rest)).1 := countHyphens_pos
  show splitHyphensGo (rest.length + 1) ('-' :: rest) = _
  simp only [splitHyphensGo, if_true]
  rw [splitHyphensGo_fuel rest.length (countHyphens ('-' :: rest)).2.length
        (countHyphens ('-' :: rest)).2 (by simp at hlen; omega) (by omega)]
  rfl

/-! ### The spec's eight-step description of the normalizer (§4.3)

Each `specStep` is written from the specification's wording; `specNormalize`
composes them in the spec's stated order, to be compared with the
source-embedded `stripRubyAndNotes`. -/

/-- Spec step 1: split on runs of 5-or-more hyphens; when at least 3 segments
result keep only the 3rd (index 2), otherwise leave the text unchanged. -/
def specStep1FrontMatter (t : List Char) : List Char :=
  let segments := splitHyphens t
  if h : 3 ≤ segments.length then segments.get ⟨2, by omega⟩ else t

/-- Spec step 2: truncate at the first occurrence of 底本：, discarding the
marker and everything after. -/
def specStep2Colophon : List Char → List Char
  | [] => []
  | c :: rest =>
    if leadsWith colMarker (c :: rest) then []
    else c :: specStep2Colophon rest

/-- Spec step 3: remove every 《…》 span non-greedily. -/
def specStep3Ruby (t : List Char) : List Char := removeRuby t

/-- Spec step 4: remove every ［＃…］ span non-greedily. -/
def specStep4Notes (t : List Char) : List Char := removeNotes t

/-- Spec step 5: delete every U+3000 ideographic space. -/
def specStep5Ideo (t : List Char) : List Char :=
  t.filter (fun c => !(c = ideographicSpace : Bool))

/-- Spec step 6: replace every CRLF pair with a single LF. -/
def specStep6Newlines (t : List Char) : List Char := crlf t

/-- Spec step 7: collapse every run of 3-or-more LFs to exactly 2. -/
def specStep7Collapse (t : List Char) : List Char := collapseLF t

/-- Spec step 8: strip leading and trailing whitespace. -/
def specStep8Trim (t : List Char) : List Char := pyStrip t

/-- The spec's normalizer: the eight steps composed in the spec's order. -/
def specNormalize (t : List Char) : List Char :=
  specStep8Trim (specStep7Collapse (specStep6Newlines (specStep5Ideo
    (specStep4Notes (specStep3Ruby (specStep2Colophon
      (specStep1FrontMatter t)))))))

theorem specStep2_eq_trunc : ∀ t, specStep2Colophon t = truncColophon t := by
  intro t
  induction t with
  | nil => rfl
  | cons c rest ih =>
    simp only [specStep2Colophon, truncColophon, ih]

/-- C1: the source normalizer equals the composition of the eight spec
steps in the spec's exact order. -/
theorem c1_normalizer_is_spec_composition :
    ∀ t, stripRubyAndNotes t = specNormalize t := by
  intro t
  simp only [stripRubyAndNotes, specNormalize, specStep8Trim, specStep7Collapse,
    specStep6Newlines, specStep5Ideo, specStep4Notes, specStep3Ruby,
    specStep2_eq_trunc, specStep1FrontMatter, frontMatter, removeIdeo]

/-- C9: the duplicated implementation in `app.py` is extensionally equal to
the one in `aozora.py`. -/
theorem c9_app_copy_extensionally_equal :
    ∀ t, appStripRubyAndNotes t = stripRubyAndNotes t := fun _ => rfl

/-! ### Totality (C2)

`sections[2]` is the only partial primitive the Python function uses; its
partiality is made explicit with `List.get?`, guarded exactly as in the
source by the `len(sections) >= 3` test. -/

/-- The normalizer with the source's one fallible indexing operation
(`sections[2]`) modelled as `Option`. -/
def stripOption (text : List Char) : Option (List Char) :=
  let sections := splitHyphens text
  (if 3 ≤ sections.length then sections.get? 2 else some text).map
    (fun t => pyStrip (collapseLF (crlf (removeIdeo (removeNotes
      (removeRuby (truncColophon t)))))))

/-- C2: the normalizer is total — the guarded indexing never fails, every
input produces a result, and empty input yields empty output. -/
theorem c2_normalizer_total :
    (∀ l, stripOption l = some (stripRubyAndNotes l)) ∧
    stripRubyAndNotes [] = [] := by
  constructor
  · intro l
    simp only [stripOption, stripRubyAndNotes, frontMatter]
    by_cases h : 3 ≤ (splitHyphens l).length
    · have h2 : 2 < (splitHyphens l).length := by omega
      rw [if_pos h, dif_pos h, List.get?_eq_get h2]
      rfl
    · rw [if_neg h, dif_neg h]
      rfl
  · rfl

/-! ### Front-matter removal is a no-op without two separators (C5) -/

/-- Fueled counter of maximal hyphen runs of length at least 5. -/
def runCountGo : Nat → List Char → Nat
  | 0, _ => 0
  | _ + 1, [] => 0
  | fuel + 1, c :: rest =>
    if c = '-' then
      let p := countHyphens (c :: rest)
      (if 5 ≤ p.1 then 1 else 0) + runCountGo fuel p.2
    else runCountGo fuel rest

/-- The number of occurrences of a maximal run of 5-or-more consecutive
hyphens (the separators of `re.split(r"\-{5,}", ...)`). -/
def runCount (l : List Char) : Nat := runCountGo l.length l

theorem runCountGo_fuel :
    ∀ f1 f2 l, l.length ≤ f1 → l.length ≤ f2 →
      runCountGo f1 l = runCountGo f2 l := by
  intro f1
  induction f1 with
  | zero =>
    intro f2 l h1 _
    have : l = [] := List.length_eq_zero.mp (Nat.le_zero.mp h1)
    subst this
    cases f2 <;> rfl
  | succ f ih =>
    intro f2 l h1 h2
    cases l with
    | nil => cases f2 <;> rfl
    | cons c rest =>
      cases f2 with
      | zero => simp at h2
      | succ g =>
        simp only [List.length_cons, Nat.succ_le_succ_iff] at h1 h2
        by_cases hc : c = '-'
        · have hlen := countHyphens_length (c :: rest)
          have hpos : 1 ≤ (countHyphens (c :: rest)).1 := by
            subst hc; exact countHyphens_pos
          simp only [runCountGo, hc, if_true]
          rw [ih g (countHyphens ('-' :: rest)).2 (by subst hc; simp at hlen; omega)
                (by subst hc; simp at hlen; omega)]
        · simp only [runCountGo, hc, if_false]
          rw [ih g rest h1 h2]

theorem runCount_nil : runCount [] = 0 := rfl

theorem runCount_cons_ne {c : Char} {rest : List Char} (h : c ≠ '-') :
    runCount (c :: rest) = runCount rest := by
  show runCountGo (rest.length + 1) (c :: rest) = runCount rest
  simp only [runCountGo, h, if_false]
  rfl

theorem runCount_cons_hyphen {rest : List Char} :
    runCount ('-' :: rest) =
      (if 5 ≤ (countHyphens ('-' :: rest)).1 then 1 else 0) +
        runCount (countHyphens ('-' :: rest)).2 := by
  have hlen := countHyphens_length ('-' :: rest)
  have hpos : 1 ≤ (countHyphens ('-' :: rest)).1 := countHyphens_pos
  show runCountGo (rest.length + 1) ('-' :: rest) = _
  simp only [runCountGo, if_true]
  rw [runCountGo_fuel rest.length (countHyphens ('-' :: rest)).2.length
        (countHyphens ('-' :: rest)).2 (by simp at hlen; omega) (by omega)]
  rfl

theorem consHead_length (pre : List Char) (ss : List (List Char))
    (h : ss ≠ []) : (consHead pre ss).length = ss.length := by
  cases ss with
  | nil => exact absurd rfl h
  | cons s ss' => rfl

theorem splitHyphens_ne_nil (l : List Char) : splitHyphens l ≠ [] := by
  cases l with
  | nil => simp [splitHyphens_nil]
  | cons c rest =>
    by_cases hc : c = '-'
    · subst hc
      rw [splitHyphens_cons_hyphen]
      by_cases h5 : 5 ≤ (countHyphens ('-' :: rest)).1
      · simp [h5]
      · simp only [h5, if_false]
        cases h : splitHyphens (countHyphens ('-' :: rest)).2 <;> simp [consHead]
    · rw [splitHyphens_cons_ne hc]
      cases h : splitHyphens rest <;> simp [consHead]

theorem splitHyphens_length :
    ∀ l : List Char, (splitHyphens l).length = runCount l + 1 := by
  have aux : ∀ N (l : List Char), l.length ≤ N →
      (splitHyphens l).length = runCount l + 1 := by
    intro N
    induction N with
    | zero =>
      intro l h
      have : l = [] := List.length_eq_zero.mp (Nat.le_zero.mp h)
      subst this
      simp [splitHyphens_nil, runCount_nil]
    | succ n ih =>
      intro l h
      cases l with
      | nil => simp [splitHyphens_nil, runCount_nil]
      | cons c rest =>
        simp only [List.length_cons, Nat.succ_le_succ_iff] at h
        by_cases hc : c = '-'
        · subst hc
          have hlen := countHyphens_length ('-' :: rest)
          have hpos : 1 ≤ (countHyphens ('-' :: rest)).1 := countHyphens_pos
          have hrec : (countHyphens ('-' :: rest)).2.length ≤ n := by
            simp at hlen; omega
          rw [splitHyphens_cons_hyphen, runCount_cons_hyphen]
          by_cases h5 : 5 ≤ (countHyphens ('-' :: rest)).1
          · simp only [h5, if_true, List.length_cons, ih _ hrec]
            omega
          · simp only [h5, if_false,
              consHead_length _ _ (splitHyphens_ne_nil _), ih _ hrec]
            omega
        · rw [splitHyphens_cons_ne hc, runCount_cons_ne hc,
            consHead_length _ _ (splitHyphens_ne_nil _)]
          exact ih rest h
  exact fun l => aux l.length l le_rfl

/-- C5: with fewer than 2 maximal runs of 5-or-more hyphens, splitting
yields fewer than 3 segments and the front-matter step leaves the text
unchanged. -/
theorem c5_front_matter_noop (l : List Char) (h : runCount l < 2) :
    frontMatter l = l := by
  have hlen := splitHyphens_length l
  have : ¬ 3 ≤ (splitHyphens l).length := by omega
  simp only [frontMatter, dif_neg this]

/-- Witness for C5: a text with a single 5-hyphen run is untouched by the
front-matter step. -/
theorem c5_front_matter_noop_witness :
    runCount ['a', '-', '-', '-', '-', '-', 'b'] < 2 ∧
      frontMatter ['a', '-', '-', '-', '-', '-', 'b'] =
        ['a', '-', '-', '-', '-', '-', 'b'] :=
  ⟨by decide, c5_front_matter_noop _ (by decide)⟩

/-! ### Colophon truncation (C4) -/

theorem containsSub_cons (pat : List Char) (c : Char) (rest : List Char) :
    containsSub pat (c :: rest) =
      (leadsWith pat (c :: rest) || containsSub pat rest) := rfl

theorem truncColophon_cons_pos {c : Char} {rest : List Char}
    (h : leadsWith colMarker (c :: rest) = true) :
    truncColophon (c :: rest) = [] := by
  simp only [truncColophon, h, if_true]

theorem truncColophon_cons_neg {c : Char} {rest : List Char}
    (h : leadsWith colMarker (c :: rest) = false) :
    truncColophon (c :: rest) = c :: truncColophon rest := by
  simp only [truncColophon, h, Bool.false_eq_true, if_false]

theorem truncColophon_isPrefix (l : List Char) :
    ∃ d, truncColophon l ++ d = l := by
  induction l with
  | nil => exact ⟨[], rfl⟩
  | cons c rest ih =>
    cases h : leadsWith colMarker (c :: rest) with
    | true => exact ⟨c :: rest, by simp [truncColophon_cons_pos h]⟩
    | false =>
      rcases ih with ⟨d, hd⟩
      exact ⟨d, by simp [truncColophon_cons_neg h, hd]⟩

theorem truncColophon_no_marker (l : List Char) :
    containsSub colMarker (truncColophon l) = false := by
  induction l with
  | nil => rfl
  | cons c rest ih =>
    cases h : leadsWith colMarker (c :: rest) with
    | true => rw [truncColophon_cons_pos h]; rfl
    | false =>
      rw [truncColophon_cons_neg h]
      have hlead : leadsWith colMarker (c :: truncColophon rest) = false := by
        rcases truncColophon_isPrefix rest with ⟨d, hd⟩
        cases hc : leadsWith colMarker (c :: truncColophon rest) with
        | false => rfl
        | true =>
          have h2 := leadsWith_append (t := d) hc
          rw [show (c :: truncColophon rest) ++ d = c :: rest by simp [hd]] at h2
          rw [h] at h2
          exact absurd h2 (by decide)
      rw [containsSub_cons, hlead, ih]
      rfl

theorem truncColophon_at :
    ∀ u v : List Char, containsSub colMarker (u ++ ['底', '本']) = false →
      truncColophon (u ++ colMarker ++ v) = u := by
  intro u
  induction u with
  | nil =>
    intro v _
    have hlead : leadsWith colMarker ([] ++ colMarker ++ v) = true := by
      simp only [List.nil_append]
      exact leadsWith_iff.mpr ⟨v, rfl⟩
    show truncColophon ([] ++ colMarker ++ v) = []
    rw [show ([] : List Char) ++ colMarker ++ v = '底' :: ('本' :: '：' :: v)
          from by simp [colMarker]]
    exact truncColophon_cons_pos (by
      rw [show ('底' :: ('本' :: '：' :: v)) = [] ++ colMarker ++ v
            from by simp [colMarker]]
      exact hlead)
  | cons c u' ih =>
    intro v hM
    have hM' : containsSub colMarker (u' ++ ['底', '本']) = false := by
      rw [show (c :: u') ++ ['底', '本'] = c :: (u' ++ ['底', '本']) from by simp,
        containsSub_cons] at hM
      exact (Bool.or_eq_false_iff.mp hM).2
    have hMlead : leadsWith colMarker (c :: (u' ++ ['底', '本'])) = false := by
      rw [show (c :: u') ++ ['底', '本'] = c :: (u' ++ ['底', '本']) from by simp,
        containsSub_cons] at hM
      exact (Bool.or_eq_false_iff.mp hM).1
    have hlead : leadsWith colMarker (c :: (u' ++ colMarker ++ v)) = false := by
      cases hc : leadsWith colMarker (c :: (u' ++ colMarker ++ v)) with
      | false => rfl
      | true =>
        rcases leadsWith_iff.mp hc with ⟨t, ht⟩
        exfalso
        cases u' with
        | nil =>
          simp only [colMarker, List.nil_append, List.cons_append,
            List.cons.injEq] at ht
          exact absurd ht.2.1 (by decide)
        | cons d u'' =>
          cases u'' with
          | nil =>
            simp only [colMarker, List.cons_append, List.nil_append,
              List.cons.injEq] at ht
            exact absurd ht.2.2.1 (by decide)
          | cons e u3 =>
            simp only [colMarker, List.cons_append, List.cons.injEq] at ht
            have hc0 : c = '底' := ht.1
            have hd0 : d = '本' := ht.2.1
            have he0 : e = '：' := ht.2.2.1
            have hbad : leadsWith colMarker (c :: ((d :: e :: u3) ++ ['底', '本'])) = true := by
              subst hc0; subst hd0; subst he0
              exact leadsWith_iff.mpr ⟨u3 ++ ['底', '本'], by simp [colMarker]⟩
            rw [hMlead] at hbad
            exact absurd hbad (by decide)
    have hstep : (c :: u') ++ colMarker ++ v = c :: (u' ++ colMarker ++ v) := by
      simp
    rw [hstep, truncColophon_cons_neg hlead, ih v hM']

/-- Counterexample to C4 as stated: the input contains the marker 底本：,
yet the normalizer's output contains the marker again — ruby removal joins
`底《x》本：` into a fresh occurrence. -/
theorem c4_counterexample_marker_reappears :
    containsSub colMarker
        ['底', '《', 'x', '》', '本', '：', '底', '本', '：', 't'] = true ∧
      stripRubyAndNotes
        ['底', '《', 'x', '》', '本', '：', '底', '本', '：', 't'] = colMarker ∧
      containsSub colMarker
        (stripRubyAndNotes
          ['底', '《', 'x', '》', '本', '：', '底', '本', '：', 't']) = true :=
  ⟨by decide, by decide, by decide⟩

/-- C4 (amended): the truncation step itself removes the first marker
occurrence and everything after it — its result is exactly the unaltered
prefix before the first occurrence and contains no marker occurrence —
but later steps may reassemble the marker in the final output. -/
theorem c4_amended_colophon_truncation :
    (∀ u v : List Char, containsSub colMarker (u ++ ['底', '本']) = false →
        truncColophon (u ++ colMarker ++ v) = u) ∧
      (∀ l, containsSub colMarker (truncColophon l) = false) ∧
      (∀ l, ∃ d, truncColophon l ++ d = l) :=
  ⟨truncColophon_at, truncColophon_no_marker, truncColophon_isPrefix⟩

/-- Witness for C4 (amended) at a concrete input. -/
theorem c4_amended_colophon_truncation_witness :
    truncColophon (['x'] ++ colMarker ++ ['y']) = ['x'] :=
  c4_amended_colophon_truncation.1 ['x'] ['y'] (by decide)

/-! ### The extraction stage (C8)

`_extract_text_path` (aozora.py lines 39-49) is I/O code: `zipfile.ZipFile`
raises `BadZipFile` on a non-archive payload, and `glob.glob(tmp_dir +
"/*.txt")` selects the text file from the flat extraction listing.  The
payload is modelled by its observable outcome (invalid, or a flat directory
listing), and the glob by its documented semantics: `*` matches any name
that does not start with a dot, so a matching entry must end in `.txt` and
must not be a dotfile. -/

inductive ExtractError where
  | cannotExtract : ExtractError
  | noTextFound : ExtractError
deriving DecidableEq

inductive ArchivePayload where
  | invalid : ArchivePayload
  | valid : List (List Char) → ArchivePayload

/-- A file name has the `.txt` suffix. -/
def txtSuffix (name : List Char) : Bool :=
  leadsWith ['t', 'x', 't', '.'] name.reverse

/-- A file name that `glob`'s `*` refuses to match (leading dot). -/
def dotName : List Char → Bool
  | '.' :: _ => true
  | _ => false

/-- An entry matched by `glob.glob("*.txt")`. -/
def globTxtMatch (name : List Char) : Bool :=
  txtSuffix name && !dotName name

/-- `_extract_text_path`: a non-archive payload raises the classified
"cannot extract" error; a valid archive whose listing has no glob match
raises "no text found"; otherwise the first match is returned. -/
def extractTextPath : ArchivePayload → Except ExtractError (List Char)
  | ArchivePayload.invalid => Except.error ExtractError.cannotExtract
  | ArchivePayload.valid entries =>
    match entries.filter globTxtMatch with
    | [] => Except.error ExtractError.noTextFound
    | f :: _ => Except.ok f

/-- Counterexample to C8 as stated: a valid archive containing the single
entry `.h.txt` — a file with the `.txt` suffix — still raises the
"no text found" error, because `glob.glob("*.txt")` skips dotfiles. -/
theorem c8_counterexample_dotfile :
    txtSuffix ['.', 'h', '.', 't', 'x', 't'] = true ∧
      extractTextPath (ArchivePayload.valid [['.', 'h', '.', 't', 'x', 't']]) =
        Except.error ExtractError.noTextFound :=
  ⟨by decide, rfl⟩

/-- C8 (amended): extraction classifies its failures exactly, with the
selection predicate being the glob's — `.txt` suffix and no leading dot:
invalid payloads raise "cannot extract", valid archives with no glob match
raise "no text found", and otherwise the first match is returned. -/
theorem c8_amended_extract_classification :
    (extractTextPath ArchivePayload.invalid =
        Except.error ExtractError.cannotExtract) ∧
      (∀ entries, entries.filter globTxtMatch = [] →
        extractTextPath (ArchivePayload.valid entries) =
          Except.error ExtractError.noTextFound) ∧
      (∀ entries f fs, entries.filter globTxtMatch = f :: fs →
        extractTextPath (ArchivePayload.valid entries) = Except.ok f) := by
  refine ⟨rfl, ?_, ?_⟩
  · intro entries h
    simp [extractTextPath, h]
  · intro entries f fs h
    simp [extractTextPath, h]

/-- Witness for C8 (amended) at concrete archives. -/
theorem c8_amended_extract_classification_witness :
    extractTextPath (ArchivePayload.valid [['a'], ['b', '.', 't', 'x', 't']]) =
        Except.ok ['b', '.', 't', 'x', 't'] ∧
      extractTextPath (ArchivePayload.valid [['a', '.', 'p', 'n', 'g']]) =
        Except.error ExtractError.noTextFound :=
  ⟨c8_amended_extract_classification.2.2 [['a'], ['b', '.', 't', 'x', 't']]
      ['b', '.', 't', 'x', 't'] [] (by decide),
    c8_amended_extract_classification.2.1 [['a', '.', 'p', 'n', 'g']] (by decide)⟩

/-! ### Blank-line collapsing (C6) -/

theorem countLF_cons_lf (rest : List Char) :
    countLF ('\n' :: rest) = ((countLF rest).1 + 1, (countLF rest).2) := by
  simp [countLF]

theorem countLF_cons_ne {c : Char} {rest : List Char} (h : c ≠ '\n') :
    countLF (c :: rest) = (0, c :: rest) := by
  simp [countLF, h]

theorem countLF_replicate_append {n : Nat} {b : List Char}
    (hb : b.head? ≠ some '\n') :
    countLF (List.replicate n '\n' ++ b) = (n, b) := by
  induction n with
  | zero =>
    cases b with
    | nil => rfl
    | cons c rest =>
      have hc : c ≠ '\n' := by
        intro h
        exact hb (by simp [h])
      simp only [List.replicate_zero, List.nil_append]
      exact countLF_cons_ne hc
  | succ k ih =>
    rw [show List.replicate (k + 1) '\n' ++ b =
          '\n' :: (List.replicate k '\n' ++ b) from by simp [List.replicate_succ],
      countLF_cons_lf, ih]

theorem countLF_append_rest_ne {x z : List Char} (h : (countLF x).2 ≠ []) :
    countLF (x ++ z) = ((countLF x).1, (countLF x).2 ++ z) := by
  induction x with
  | nil => simp [countLF] at h
  | cons c x' ih =>
    by_cases hc : c = '\n'
    · subst hc
      rw [countLF_cons_lf] at h
      rw [List.cons_append, countLF_cons_lf, countLF_cons_lf, ih h]
    · rw [countLF_cons_ne hc, List.cons_append, countLF_cons_ne hc]

theorem countLF_rest_ne {x : List Char} (hx : x ≠ [])
    (hl : x.getLast? ≠ some '\n') : (countLF x).2 ≠ [] := by
  induction x with
  | nil => exact absurd rfl hx
  | cons c x' ih =>
    by_cases hc : c = '\n'
    · subst hc
      cases x' with
      | nil => simp at hl
      | cons d x'' =>
        rw [List.getLast?_cons_cons] at hl
        have hi := ih (by simp) hl
        rw [countLF_cons_lf]
        exact hi
    · rw [countLF_cons_ne hc]
      simp

theorem countLF_rest_getLast {x : List Char} (h : (countLF x).2 ≠ []) :
    (countLF x).2.getLast? = x.getLast? := by
  induction x with
  | nil => simp [countLF] at h
  | cons c x' ih =>
    by_cases hc : c = '\n'
    · subst hc
      rw [countLF_cons_lf] at h ⊢
      cases x' with
      | nil => simp [countLF] at h
      | cons d x'' =>
        rw [List.getLast?_cons_cons]
        exact ih h
    · rw [countLF_cons_ne hc]

theorem collapseLF_replicate {n : Nat} {b : List Char} (hn : 3 ≤ n)
    (hb : b.head? ≠ some '\n') :
    collapseLF (List.replicate n '\n' ++ b) = ['\n', '\n'] ++ collapseLF b := by
  obtain ⟨k, rfl⟩ : ∃ k, n = k + 1 := ⟨n - 1, by omega⟩
  have hshape : List.replicate (k + 1) '\n' ++ b =
      '\n' :: (List.replicate k '\n' ++ b) := by
    simp [List.replicate_succ]
  rw [hshape, collapseLF_cons_lf]
  have hcnt : countLF ('\n' :: (List.replicate k '\n' ++ b)) = (k + 1, b) := by
    rw [← hshape]
    exact countLF_replicate_append hb
  have h1 : (countLF ('\n' :: (List.replicate k '\n' ++ b))).1 = k + 1 := by
    rw [hcnt]
  have h2 : (countLF ('\n' :: (List.replicate k '\n' ++ b))).2 = b := by
    rw [hcnt]
  rw [h1, h2, if_pos hn]

theorem collapseLF_run_aux :
    ∀ N (a b : List Char) (n : Nat), a.length ≤ N → 3 ≤ n →
      a.getLast? ≠ some '\n' → b.head? ≠ some '\n' →
      collapseLF (a ++ List.replicate n '\n' ++ b) =
        collapseLF a ++ ['\n', '\n'] ++ collapseLF b := by
  intro N
  induction N with
  | zero =>
    intro a b n ha0 hn ha hb
    have : a = [] := List.length_eq_zero.mp (Nat.le_zero.mp ha0)
    subst this
    simp only [List.nil_append, collapseLF_nil]
    exact collapseLF_replicate hn hb
  | succ N ih =>
    intro a b n halen hn ha hb
    cases a with
    | nil =>
      simp only [List.nil_append, collapseLF_nil]
      exact collapseLF_replicate hn hb
    | cons c a' =>
      by_cases hc : c = '\n'
      · subst hc
        have q2ne : (countLF ('\n' :: a')).2 ≠ [] :=
          countLF_rest_ne (by simp) ha
        have hshape : ('\n' :: a') ++ List.replicate n '\n' ++ b =
            '\n' :: (a' ++ List.replicate n '\n' ++ b) := by simp
        rw [hshape, collapseLF_cons_lf, collapseLF_cons_lf]
        have hcnt : countLF ('\n' :: (a' ++ List.replicate n '\n' ++ b)) =
            ((countLF ('\n' :: a')).1,
              (countLF ('\n' :: a')).2 ++ (List.replicate n '\n' ++ b)) := by
          rw [show '\n' :: (a' ++ List.replicate n '\n' ++ b) =
                ('\n' :: a') ++ (List.replicate n '\n' ++ b) from by simp]
          exact countLF_append_rest_ne q2ne
        have h1 : (countLF ('\n' :: (a' ++ List.replicate n '\n' ++ b))).1 =
            (countLF ('\n' :: a')).1 := by rw [hcnt]
        have h2 : (countLF ('\n' :: (a' ++ List.replicate n '\n' ++ b))).2 =
            (countLF ('\n' :: a')).2 ++ (List.replicate n '\n' ++ b) := by
          rw [hcnt]
        rw [h1, h2]
        have hq2len : (countLF ('\n' :: a')).2.length ≤ N := by
          have hlen := countLF_length ('\n' :: a')
          have hp : 1 ≤ (countLF ('\n' :: a')).1 := countLF_pos
          simp only [List.length_cons] at hlen halen
          omega
        have hq2last : (countLF ('\n' :: a')).2.getLast? ≠ some '\n' := by
          rw [countLF_rest_getLast q2ne]
          exact ha
        have hrec := ih (countLF ('\n' :: a')).2 b n hq2len hn hq2last hb
        rw [show (countLF ('\n' :: a')).2 ++ (List.replicate n '\n' ++ b) =
              (countLF ('\n' :: a')).2 ++ List.replicate n '\n' ++ b
              from by simp]
        rw [hrec]
        simp
      · have hshape : (c :: a') ++ List.replicate n '\n' ++ b =
            c :: (a' ++ List.replicate n '\n' ++ b) := by simp
        rw [hshape, collapseLF_cons_ne hc, collapseLF_cons_ne hc]
        have ha' : a'.getLast? ≠ some '\n' := by
          cases a' with
          | nil => simp
          | cons d a'' =>
            rw [List.getLast?_cons_cons] at ha
            exact ha
        rw [ih a' b n (by simp at halen; omega) hn ha' hb]
        simp

/-- Counterexample to C6 as stated: the input `a\n\n\n` contains a run of
three line feeds, yet the normalizer's output is `a` — the collapsed pair
sits at the end of the text and the final `strip()` removes it entirely, so
the run becomes zero line feeds in the output, not two. -/
theorem c6_counterexample_trailing_run_trimmed :
    containsSub ['\n', '\n', '\n'] ['a', '\n', '\n', '\n'] = true ∧
      stripRubyAndNotes ['a', '\n', '\n', '\n'] = ['a'] ∧
      containsSub ['\n'] (stripRubyAndNotes ['a', '\n', '\n', '\n']) = false :=
  ⟨by decide, by decide, by decide⟩

/-- C6 (amended): at the blank-line-collapsing step, any maximal run of
`n ≥ 3` line feeds becomes exactly two line feeds, with the surrounding
text collapsed independently; in the final output a run adjoining the start
or end of the text may then be trimmed away by `strip()`, and runs in
regions discarded by earlier steps disappear with them. -/
theorem c6_blank_line_collapse (a b : List Char) (n : Nat) (hn : 3 ≤ n)
    (ha : a.getLast? ≠ some '\n') (hb : b.head? ≠ some '\n') :
    collapseLF (a ++ List.replicate n '\n' ++ b) =
      collapseLF a ++ ['\n', '\n'] ++ collapseLF b :=
  collapseLF_run_aux a.length a b n le_rfl hn ha hb

/-- Witness for C6: a run of 4 line feeds between `x` and `y`. -/
theorem c6_blank_line_collapse_witness :
    collapseLF (['x'] ++ List.replicate 4 '\n' ++ ['y']) =
      collapseLF ['x'] ++ ['\n', '\n'] ++ collapseLF ['y'] :=
  c6_blank_line_collapse ['x'] ['y'] 4 (by decide) (by decide) (by decide)

/-! ### Output cleanliness (C10) -/

theorem leadsWith_head_ne {p : Char} {ps w : List Char}
    (h : w.head? ≠ some p) : leadsWith (p :: ps) w = false := by
  cases w with
  | nil => rfl
  | cons c ws =>
    have hc : ¬ p = c := by
      intro he
      exact h (by simp [he])
    simp [leadsWith, hc]

theorem pyStrip_decomp (l : List Char) :
    l = l.takeWhile isPySpace ++ pyStrip l ++
        ((l.dropWhile isPySpace).reverse.takeWhile isPySpace).reverse := by
  have h2 : (l.dropWhile isPySpace).reverse.takeWhile isPySpace ++
      (l.dropWhile isPySpace).reverse.dropWhile isPySpace =
      (l.dropWhile isPySpace).reverse :=
    List.takeWhile_append_dropWhile isPySpace (l.dropWhile isPySpace).reverse
  have h3 := congrArg List.reverse h2
  simp only [List.reverse_append, List.reverse_reverse] at h3
  conv_lhs => rw [← List.takeWhile_append_dropWhile isPySpace l, ← h3]
  simp only [pyStrip, List.append_assoc]

theorem containsSub_pyStrip {pat l : List Char}
    (h : containsSub pat (pyStrip l) = true) : containsSub pat l = true := by
  have hd := pyStrip_decomp l
  rw [hd]
  exact containsSub_middle h

theorem mem_pyStrip {c : Char} {l : List Char} (h : c ∈ pyStrip l) : c ∈ l := by
  have hd := pyStrip_decomp l
  rw [hd]
  simp only [List.mem_append]
  exact Or.inl (Or.inr h)

theorem dropWhile_head_not (q : Char → Bool) :
    ∀ (l : List Char) (c : Char), (l.dropWhile q).head? = some c →
      q c = false := by
  intro l
  induction l with
  | nil => intro c h; simp at h
  | cons d l' ih =>
    intro c h
    cases hq : q d with
    | true =>
      rw [List.dropWhile_cons_of_pos hq] at h
      exact ih c h
    | false =>
      rw [List.dropWhile_cons_of_neg (by simp [hq])] at h
      simp only [List.head?_cons, Option.some.injEq] at h
      rw [← h]
      exact hq

theorem getLast?_dropWhile_ne (q : Char → Bool) :
    ∀ (l : List Char), l.dropWhile q ≠ [] →
      (l.dropWhile q).getLast? = l.getLast? := by
  intro l
  induction l with
  | nil => intro h; exact absurd rfl h
  | cons d l' ih =>
    intro h
    cases hq : q d with
    | true =>
      rw [List.dropWhile_cons_of_pos hq] at h ⊢
      have hne : l' ≠ [] := by
        intro h0
        subst h0
        simp at h
      cases l' with
      | nil => exact absurd rfl hne
      | cons e l'' =>
        rw [List.getLast?_cons_cons]
        exact ih h
    | false =>
      rw [List.dropWhile_cons_of_neg (by simp [hq])]

theorem pyStrip_head_clean {l : List Char} {c : Char}
    (h : (pyStrip l).head? = some c) : isPySpace c = false := by
  have h1 : (pyStrip l).head? =
      ((l.dropWhile isPySpace).reverse.dropWhile isPySpace).getLast? :=
    List.head?_reverse _
  rw [h1] at h
  have hne : (l.dropWhile isPySpace).reverse.dropWhile isPySpace ≠ [] := by
    intro h0
    rw [h0] at h
    simp at h
  rw [getLast?_dropWhile_ne isPySpace _ hne, List.getLast?_reverse] at h
  exact dropWhile_head_not isPySpace l c h

theorem pyStrip_getLast_clean {l : List Char} {c : Char}
    (h : (pyStrip l).getLast? = some c) : isPySpace c = false := by
  have h1 : (pyStrip l).getLast? =
      ((l.dropWhile isPySpace).reverse.dropWhile isPySpace).head? :=
    List.getLast?_reverse _
  rw [h1] at h
  exact dropWhile_head_not isPySpace _ c h

theorem countLF_rest_head :
    ∀ l : List Char, (countLF l).2.head? ≠ some '\n' := by
  intro l
  induction l with
  | nil => simp [countLF]
  | cons c rest ih =>
    by_cases hc : c = '\n'
    · subst hc
      rw [countLF_cons_lf]
      exact ih
    · rw [countLF_cons_ne hc]
      simp only [List.head?_cons]
      intro h
      exact hc (by simpa using h)

theorem collapseLF_head_ne {l : List Char} (h : l.head? ≠ some '\n') :
    (collapseLF l).head? = l.head? := by
  cases l with
  | nil => rfl
  | cons c rest =>
    have hc : c ≠ '\n' := by
      intro h0
      exact h (by simp [h0])
    rw [collapseLF_cons_ne hc]
    rfl

theorem containsSub_lf3_pad :
    ∀ (e : Nat), e ≤ 2 → ∀ w : List Char, w.head? ≠ some '\n' →
      containsSub ['\n', '\n', '\n'] w = false →
      containsSub ['\n', '\n', '\n'] (List.replicate e '\n' ++ w) = false := by
  have one : ∀ w : List Char, w.head? ≠ some '\n' →
      containsSub ['\n', '\n', '\n'] w = false →
      containsSub ['\n', '\n', '\n'] ('\n' :: w) = false := by
    intro w hw hcs
    rw [containsSub_cons]
    have hl : leadsWith ['\n', '\n', '\n'] ('\n' :: w) = false := by
      have : leadsWith ['\n', '\n'] w = false := leadsWith_head_ne hw
      simp [leadsWith, this]
    rw [hl, hcs]
    rfl
  intro e he
  match e, he with
  | 0, _ => intro w _ hcs; simpa using hcs
  | 1, _ =>
    intro w hw hcs
    simpa using one w hw hcs
  | 2, _ =>
    intro w hw hcs
    have h1 := one w hw hcs
    have hl : leadsWith ['\n', '\n', '\n'] ('\n' :: '\n' :: w) = false := by
      have h0 : leadsWith ['\n'] w = false := leadsWith_head_ne hw
      simp [leadsWith, h0]
    have h2 : containsSub ['\n', '\n', '\n'] ('\n' :: '\n' :: w) = false := by
      rw [containsSub_cons, hl, h1]
      rfl
    simpa [List.replicate] using h2

theorem collapseLF_noTriple :
    ∀ l : List Char, containsSub ['\n', '\n', '\n'] (collapseLF l) = false := by
  have aux : ∀ N (l : List Char), l.length ≤ N →
      containsSub ['\n', '\n', '\n'] (collapseLF l) = false := by
    intro N
    induction N with
    | zero =>
      intro l h
      have : l = [] := List.length_eq_zero.mp (Nat.le_zero.mp h)
      subst this
      rfl
    | succ N ih =>
      intro l hlen
      cases l with
      | nil => rfl
      | cons c rest =>
        by_cases hc : c = '\n'
        · subst hc
          rw [collapseLF_cons_lf]
          have hpos : 1 ≤ (countLF ('\n' :: rest)).1 := countLF_pos
          have hL := countLF_length ('\n' :: rest)
          have hq2 : (countLF ('\n' :: rest)).2.length ≤ N := by
            simp only [List.length_cons] at hL hlen
            omega
          have hhead : (collapseLF (countLF ('\n' :: rest)).2).head? ≠
              some '\n' := by
            rw [collapseLF_head_ne (countLF_rest_head _)]
            exact countLF_rest_head _
          have hrec := ih _ hq2
          by_cases h3 : 3 ≤ (countLF ('\n' :: rest)).1
          · rw [if_pos h3]
            have := containsSub_lf3_pad 2 (by omega) _ hhead hrec
            simpa [List.replicate] using this
          · rw [if_neg h3]
            exact containsSub_lf3_pad _ (by omega) _ hhead hrec
        · rw [collapseLF_cons_ne hc, containsSub_cons]
          have hl : leadsWith ['\n', '\n', '\n'] (c :: collapseLF rest) = false :=
            leadsWith_head_ne (by simp [hc])
          rw [hl, ih rest (by simp at hlen; omega)]
          rfl
  exact fun l => aux l.length l le_rfl

theorem mem_crlf :
    ∀ l : List Char, ∀ c, c ∈ crlf l → c ∈ l ∨ c = '\n' := by
  have aux : ∀ N (l : List Char), l.length ≤ N → ∀ c, c ∈ crlf l →
      c ∈ l ∨ c = '\n' := by
    intro N
    induction N with
    | zero =>
      intro l h c hc
      have : l = [] := List.length_eq_zero.mp (Nat.le_zero.mp h)
      subst this
      simp [crlf] at hc
    | succ N ih =>
      intro l hlen c hc
      match l with
      | [] => simp [crlf] at hc
      | [d] =>
        simp only [crlf, List.mem_singleton] at hc
        exact Or.inl (by simp [hc])
      | a :: b :: rest =>
        simp only [List.length_cons] at hlen
        by_cases hab : a = '\r' ∧ b = '\n'
        · rw [show crlf (a :: b :: rest) = '\n' :: crlf rest from by
              simp [crlf, hab]] at hc
          rcases List.mem_cons.mp hc with h1 | h1
          · exact Or.inr h1
          · rcases ih rest (by omega) c h1 with h2 | h2
            · exact Or.inl (by simp [h2])
            · exact Or.inr h2
        · rw [show crlf (a :: b :: rest) = a :: crlf (b :: rest) from by
              simp [crlf, hab]] at hc
          rcases List.mem_cons.mp hc with h1 | h1
          · exact Or.inl (by simp [h1])
          · rcases ih (b :: rest) (by simp; omega) c h1 with h2 | h2
            · exact Or.inl (by simpa using Or.inr (List.mem_cons.mp h2))
            · exact Or.inr h2
  exact fun l => aux l.length l le_rfl

theorem mem_collapseLF :
    ∀ l : List Char, ∀ c, c ∈ collapseLF l → c ∈ l ∨ c = '\n' := by
  have aux : ∀ N (l : List Char), l.length ≤ N → ∀ c, c ∈ collapseLF l →
      c ∈ l ∨ c = '\n' := by
    intro N
    induction N with
    | zero =>
      intro l h c hc
      have : l = [] := List.length_eq_zero.mp (Nat.le_zero.mp h)
      subst this
      simp [collapseLF_nil] at hc
    | succ N ih =>
      intro l hlen c hc
      cases l with
      | nil => simp [collapseLF_nil] at hc
      | cons a rest =>
        by_cases ha : a = '\n'
        · subst ha
          rw [collapseLF_cons_lf] at hc
          rcases List.mem_append.mp hc with h1 | h1
          · refine Or.inr ?_
            by_cases h3 : 3 ≤ (countLF ('\n' :: rest)).1
            · rw [if_pos h3] at h1
              simpa using (by
                rcases List.mem_cons.mp h1 with h | h
                · exact h
                · simpa using h)
            · rw [if_neg h3] at h1
              exact (List.mem_replicate.mp h1).2
          · have hpos : 1 ≤ (countLF ('\n' :: rest)).1 := countLF_pos
            have hL := countLF_length ('\n' :: rest)
            rcases ih _ (by simp only [List.length_cons] at hL hlen; omega)
                c h1 with h2 | h2
            · refine Or.inl ?_
              have hdec := countLF_decomp ('\n' :: rest)
              rw [← hdec]
              exact List.mem_append.mpr (Or.inr h2)
            · exact Or.inr h2
        · rw [collapseLF_cons_ne ha] at hc
          rcases List.mem_cons.mp hc with h1 | h1
          · exact Or.inl (by simp [h1])
          · rcases ih rest (by simp at hlen; omega) c h1 with h2 | h2
            · exact Or.inl (by simp [h2])
            · exact Or.inr h2
  exact fun l => aux l.length l le_rfl

theorem ideo_not_mem_removeIdeo (l : List Char) :
    ideographicSpace ∉ removeIdeo l := by
  intro h
  have := (List.mem_filter.mp h).2
  simp at this

/-- Counterexample to C10 as stated: the output can contain a CRLF pair,
because `replace("\r\n", "\n")` is a single pass — `\r\r\n` leaves a fresh
`\r\n` behind. -/
theorem c10_counterexample_crlf_survives :
    containsSub ['\r', '\n']
      (stripRubyAndNotes ['x', '\r', '\r', '\n', 'y']) = true := by decide

/-- C10 (amended): for every input the output contains no ideographic
space, no run of three-or-more line feeds, and neither starts nor ends
with Python whitespace; the no-CRLF-pair conjunct of the original claim
is dropped. -/
theorem c10_amended_output_clean : ∀ l : List Char,
    ideographicSpace ∉ stripRubyAndNotes l ∧
      containsSub ['\n', '\n', '\n'] (stripRubyAndNotes l) = false ∧
      (∀ c, (stripRubyAndNotes l).head? = some c → isPySpace c = false) ∧
      (∀ c, (stripRubyAndNotes l).getLast? = some c → isPySpace c = false) := by
  intro l
  refine ⟨?_, ?_, fun c h => pyStrip_head_clean h,
    fun c h => pyStrip_getLast_clean h⟩
  · intro hmem
    have h1 := mem_pyStrip hmem
    rcases mem_collapseLF _ _ h1 with h2 | h2
    · rcases mem_crlf _ _ h2 with h3 | h3
      · exact ideo_not_mem_removeIdeo _ h3
      · exact absurd h3 (by decide)
    · exact absurd h2 (by decide)
  · cases hb : containsSub ['\n', '\n', '\n'] (stripRubyAndNotes l) with
    | false => rfl
    | true =>
      have h1 := containsSub_pyStrip hb
      rw [collapseLF_noTriple] at h1
      exact absurd h1 (by decide)

/-- Witness for C10 (amended): the trim conjuncts evaluated on a concrete
input whose output is `ab`. -/
theorem c10_amended_output_clean_witness :
    isPySpace 'a' = false ∧ isPySpace 'b' = false :=
  ⟨(c10_amended_output_clean ['\n', 'a', 'b']).2.2.1 'a' (by decide),
    (c10_amended_output_clean ['\n', 'a', 'b']).2.2.2 'b' (by decide)⟩

/-! ### Ruby and note span analysis (C3)

`SpanBadRuby z` says `z` contains a substring `《w》` with `w` nonempty and
newline-free — i.e. a well-formed ruby span.  The removal pass is shown to
leave no such span, and every later step preserves that invariant. -/

/-- A well-formed ruby span occurs in `z`. -/
def SpanBadRuby (z : List Char) : Prop :=
  ∃ u w v : List Char, z = u ++ '《' :: (w ++ '》' :: v) ∧ w ≠ [] ∧ noLF w

/-- A ruby match starts somewhere in `l` (existence of any `《.+?》` match,
regardless of the left-to-right pass). -/
def hasRuby : List Char → Bool
  | [] => false
  | c :: rest => (c = '《' && (rubyMatchEnd rest).isSome) || hasRuby rest

/-- A note match starts somewhere in `l`. -/
def hasNote : List Char → Bool
  | [] => false
  | c :: rest => (c = '［' && (noteMatchEnd rest).isSome) || hasNote rest

theorem removeRuby_of_not_hasRuby :
    ∀ {l : List Char}, hasRuby l = false → removeRuby l = l := by
  intro l
  induction l with
  | nil => intro _; rfl
  | cons c rest ih =>
    intro h
    simp only [hasRuby, Bool.or_eq_false_iff, Bool.and_eq_false_iff] at h
    rcases h with ⟨h1, h2⟩
    by_cases hc : c = '《'
    · have hm : rubyMatchEnd rest = none := by
        rcases h1 with h1 | h1
        · simp [hc] at h1
        · exact Option.not_isSome_iff_eq_none.mp (by simp [h1])
      rw [removeRuby_nomatch (Or.inr hm), ih h2]
    · rw [removeRuby_nomatch (Or.inl hc), ih h2]

theorem removeNotes_of_not_hasNote :
    ∀ {l : List Char}, hasNote l = false → removeNotes l = l := by
  intro l
  induction l with
  | nil => intro _; rfl
  | cons c rest ih =>
    intro h
    simp only [hasNote, Bool.or_eq_false_iff, Bool.and_eq_false_iff] at h
    rcases h with ⟨h1, h2⟩
    by_cases hc : c = '［'
    · have hm : noteMatchEnd rest = none := by
        rcases h1 with h1 | h1
        · simp [hc] at h1
        · exact Option.not_isSome_iff_eq_none.mp (by simp [h1])
      rw [removeNotes_nomatch (Or.inr hm), ih h2]
    · rw [removeNotes_nomatch (Or.inl hc), ih h2]

theorem noLF_cons {c : Char} {w : List Char} :
    noLF (c :: w) ↔ c ≠ '\n' ∧ noLF w := by
  simp [noLF]

theorem spanBad_nil : ¬ SpanBadRuby [] := by
  rintro ⟨u, w, v, h, _, _⟩
  simp at h

theorem spanBad_append_left {x z : List Char} (h : SpanBadRuby z) :
    SpanBadRuby (x ++ z) := by
  rcases h with ⟨u, w, v, hdec, hw, hn⟩
  exact ⟨x ++ u, w, v, by rw [hdec]; simp, hw, hn⟩

theorem spanBad_cons {c : Char} {z : List Char} (h : SpanBadRuby z) :
    SpanBadRuby (c :: z) :=
  spanBad_append_left (x := [c]) h

theorem spanBad_append_right {z b : List Char} (h : SpanBadRuby z) :
    SpanBadRuby (z ++ b) := by
  rcases h with ⟨u, w, v, hdec, hw, hn⟩
  exact ⟨u, w, v ++ b, by rw [hdec]; simp, hw, hn⟩

theorem spanBad_middle {a z b : List Char} (h : SpanBadRuby z) :
    SpanBadRuby (a ++ z ++ b) := by
  rw [List.append_assoc]
  exact spanBad_append_left (spanBad_append_right h)

theorem spanBad_cons_elim {c : Char} {z : List Char}
    (h : SpanBadRuby (c :: z)) :
    (c = '《' ∧ ∃ w v, z = w ++ '》' :: v ∧ w ≠ [] ∧ noLF w) ∨
      SpanBadRuby z := by
  rcases h with ⟨u, w, v, hdec, hw, hn⟩
  cases u with
  | nil =>
    simp only [List.nil_append, List.cons.injEq] at hdec
    exact Or.inl ⟨hdec.1, w, v, hdec.2, hw, hn⟩
  | cons u0 u' =>
    simp only [List.cons_append, List.cons.injEq] at hdec
    exact Or.inr ⟨u', w, v, hdec.2, hw, hn⟩

theorem rubyScan_cons_skip {c : Char} {rest : List Char}
    (h1 : c ≠ '》') (h2 : c ≠ '\n') :
    rubyScan (c :: rest) = rubyScan rest := by
  simp [rubyScan, h1, h2]

theorem rubyScan_of_matchEnd {r rem : List Char}
    (hm : rubyMatchEnd r = some rem) : rubyScan r ≠ none := by
  cases r with
  | nil => simp [rubyMatchEnd] at hm
  | cons e r' =>
    have he : e ≠ '\n' := by
      intro h0
      rw [h0] at hm
      simp [rubyMatchEnd] at hm
    have hscan : rubyScan r' = some rem := by
      simpa [rubyMatchEnd, he] using hm
    by_cases he2 : e = '》'
    · simp [rubyScan, he2]
    · rw [rubyScan_cons_skip he2 he, hscan]
      simp

/-- If the removal pass's output starts with a newline-free stretch followed
by `》`, then a `》` was reachable in the input before any newline. -/
theorem removeRuby_close_scan :
    ∀ t w v : List Char, removeRuby t = w ++ '》' :: v → noLF w →
      rubyScan t ≠ none := by
  have aux : ∀ N (t : List Char), t.length ≤ N →
      ∀ w v, removeRuby t = w ++ '》' :: v → noLF w → rubyScan t ≠ none := by
    intro N
    induction N with
    | zero =>
      intro t ht w v hdec _
      have : t = [] := List.length_eq_zero.mp (Nat.le_zero.mp ht)
      subst this
      rw [removeRuby_nil] at hdec
      exact absurd hdec.symm (by simp)
    | succ N ih =>
      intro t ht w v hdec hn
      cases t with
      | nil =>
        rw [removeRuby_nil] at hdec
        exact absurd hdec.symm (by simp)
      | cons c rest =>
        simp only [List.length_cons, Nat.succ_le_succ_iff] at ht
        by_cases hc : c = '《'
        · cases hm : rubyMatchEnd rest with
          | some rem =>
            subst hc
            rw [rubyScan_cons_skip (by decide) (by decide)]
            exact rubyScan_of_matchEnd hm
          | none =>
            rw [removeRuby_nomatch (Or.inr hm)] at hdec
            cases w with
            | nil =>
              simp only [List.nil_append, List.cons.injEq] at hdec
              rw [hdec.1]
              simp [rubyScan]
            | cons w0 w' =>
              simp only [List.cons_append, List.cons.injEq] at hdec
              have hw0 : w0 ≠ '\n' := (noLF_cons.mp hn).1
              have hr := ih rest ht w' v hdec.2 (noLF_cons.mp hn).2
              by_cases hcc : c = '》'
              · rw [hcc]
                simp [rubyScan]
              · rw [rubyScan_cons_skip hcc (hdec.1 ▸ hw0), ]
                exact hr
        · rw [removeRuby_nomatch (Or.inl hc)] at hdec
          cases w with
          | nil =>
            simp only [List.nil_append, List.cons.injEq] at hdec
            rw [hdec.1]
            simp [rubyScan]
          | cons w0 w' =>
            simp only [List.cons_append, List.cons.injEq] at hdec
            have hw0 : w0 ≠ '\n' := (noLF_cons.mp hn).1
            have hr := ih rest ht w' v hdec.2 (noLF_cons.mp hn).2
            by_cases hcc : c = '》'
            · rw [hcc]
              simp [rubyScan]
            · rw [rubyScan_cons_skip hcc (hdec.1 ▸ hw0)]
              exact hr
  exact fun t => aux t.length t le_rfl

/-- When no ruby match starts right after a `《`, the removal pass's output
of the following text cannot begin with a well-formed span closing. -/
theorem removeRuby_nomatch_prefix {r : List Char}
    (hm : rubyMatchEnd r = none) :
    ∀ w v, removeRuby r = w ++ '》' :: v → w ≠ [] → noLF w → False := by
  intro w v hdec hw hn
  cases r with
  | nil =>
    rw [removeRuby_nil] at hdec
    exact absurd hdec.symm (by simp)
  | cons d r' =>
    by_cases hd : d = '\n'
    · have heq : removeRuby (d :: r') = d :: removeRuby r' :=
        removeRuby_nomatch (Or.inl (by rw [hd]; decide))
      rw [heq] at hdec
      cases w with
      | nil => simp_all
      | cons w0 w' =>
        simp only [List.cons_append, List.cons.injEq] at hdec
        exact (noLF_cons.mp hn).1 (hdec.1 ▸ hd)
    · have hscan : rubyScan r' = none := by
        simpa [rubyMatchEnd, hd] using hm
      have heq : removeRuby (d :: r') = d :: removeRuby r' := by
        by_cases hdG : d = '《'
        · cases hm2 : rubyMatchEnd r' with
          | some rem => exact absurd hscan (rubyScan_of_matchEnd hm2)
          | none => exact removeRuby_nomatch (Or.inr hm2)
        · exact removeRuby_nomatch (Or.inl hdG)
      rw [heq] at hdec
      cases w with
      | nil => exact hw rfl
      | cons w0 w' =>
        simp only [List.cons_append, List.cons.injEq] at hdec
        exact removeRuby_close_scan r' w' v hdec.2 (noLF_cons.mp hn).2 hscan

/-- The ruby-removal pass leaves no well-formed ruby span in its output. -/
theorem removeRuby_spanFree : ∀ t : List Char, ¬ SpanBadRuby (removeRuby t) := by
  have aux : ∀ N (t : List Char), t.length ≤ N →
      ¬ SpanBadRuby (removeRuby t) := by
    intro N
    induction N with
    | zero =>
      intro t ht
      have : t = [] := List.length_eq_zero.mp (Nat.le_zero.mp ht)
      subst this
      rw [removeRuby_nil]
      exact spanBad_nil
    | succ N ih =>
      intro t ht hbad
      cases t with
      | nil =>
        rw [removeRuby_nil] at hbad
        exact spanBad_nil hbad
      | cons c rest =>
        simp only [List.length_cons, Nat.succ_le_succ_iff] at ht
        by_cases hc : c = '《'
        · cases hm : rubyMatchEnd rest with
          | some rem =>
            subst hc
            rw [removeRuby_match hm] at hbad
            have hlen := rubyMatchEnd_length hm
            exact ih rem (by omega) hbad
          | none =>
            rw [removeRuby_nomatch (Or.inr hm)] at hbad
            rcases spanBad_cons_elim hbad with ⟨_, w, v, hdec, hw, hn⟩ | hbad2
            · exact removeRuby_nomatch_prefix hm w v hdec hw hn
            · exact ih rest ht hbad2
        · rw [removeRuby_nomatch (Or.inl hc)] at hbad
          rcases spanBad_cons_elim hbad with ⟨hceq, _⟩ | hbad2
          · exact hc hceq
          · exact ih rest ht hbad2
  exact fun t => aux t.length t le_rfl

/-! ### Later steps preserve the absence of ruby spans -/

theorem noLF_append {a b : List Char} :
    noLF (a ++ b) ↔ noLF a ∧ noLF b := by
  simp [noLF]
  constructor
  · intro h
    exact ⟨fun c hc => h c (Or.inl hc), fun c hc => h c (Or.inr hc)⟩
  · rintro ⟨h1, h2⟩ c (hc | hc)
    · exact h1 c hc
    · exact h2 c hc

theorem noteScan_decomp :
    ∀ z r : List Char, noteScan z = some r →
      ∃ m, z = m ++ '］' :: r ∧ noLF m := by
  intro z
  induction z with
  | nil => intro r h; simp [noteScan] at h
  | cons c z' ih =>
    intro r h
    by_cases h1 : c = '］'
    · subst h1
      have hz : z' = r := by simpa [noteScan] using h
      exact ⟨[], by simp [hz], by simp [noLF]⟩
    · by_cases h2 : c = '\n'
      · simp [noteScan, h1, h2] at h
      · have hs : noteScan z' = some r := by simpa [noteScan, h1, h2] using h
        rcases ih r hs with ⟨m, hm, hn⟩
        exact ⟨c :: m, by simp [hm], noLF_cons.mpr ⟨h2, hn⟩⟩

theorem noteMatchEnd_decomp {rest rem : List Char}
    (h : noteMatchEnd rest = some rem) :
    ∃ m, rest = m ++ rem ∧ noLF m := by
  match rest with
  | [] => simp [noteMatchEnd] at h
  | [c] => simp [noteMatchEnd] at h
  | c :: d :: r' =>
    by_cases h1 : c = '＃'
    · by_cases h2 : d = '\n'
      · simp [noteMatchEnd, h1, h2] at h
      · have hs : noteScan r' = some rem := by
          simpa [noteMatchEnd, h1, h2] using h
        rcases noteScan_decomp r' rem hs with ⟨m0, hm0, hn0⟩
        refine ⟨c :: d :: (m0 ++ ['］']), by simp [hm0], ?_⟩
        refine noLF_cons.mpr ⟨by rw [h1]; decide, noLF_cons.mpr ⟨h2, ?_⟩⟩
        exact noLF_append.mpr ⟨hn0, by simp [noLF]⟩
    · simp [noteMatchEnd, h1] at h

theorem removeNotes_prefix_pullback :
    ∀ t : List Char, ∀ (g : Char) (w v : List Char),
      removeNotes t = w ++ g :: v → noLF w →
      ∃ w₀ v₀, t = w₀ ++ g :: v₀ ∧ noLF w₀ ∧ w.length ≤ w₀.length := by
  have aux : ∀ N (t : List Char), t.length ≤ N →
      ∀ (g : Char) (w v : List Char), removeNotes t = w ++ g :: v → noLF w →
      ∃ w₀ v₀, t = w₀ ++ g :: v₀ ∧ noLF w₀ ∧ w.length ≤ w₀.length := by
    intro N
    induction N with
    | zero =>
      intro t ht g w v hdec _
      have : t = [] := List.length_eq_zero.mp (Nat.le_zero.mp ht)
      subst this
      rw [removeNotes_nil] at hdec
      exact absurd hdec.symm (by simp)
    | succ N ih =>
      intro t ht g w v hdec hn
      cases t with
      | nil =>
        rw [removeNotes_nil] at hdec
        exact absurd hdec.symm (by simp)
      | cons c rest =>
        simp only [List.length_cons, Nat.succ_le_succ_iff] at ht
        by_cases hc : c = '［'
        · cases hm : noteMatchEnd rest with
          | some rem =>
            subst hc
            rw [removeNotes_match hm] at hdec
            have hlen := noteMatchEnd_length hm
            rcases ih rem (by omega) g w v hdec hn with ⟨w₀, v₀, h1, h2, h3⟩
            rcases noteMatchEnd_decomp hm with ⟨m, hm1, hm2⟩
            refine ⟨'［' :: (m ++ w₀), v₀, ?_, ?_, ?_⟩
            · rw [hm1, h1]
              simp
            · exact noLF_cons.mpr ⟨by decide, noLF_append.mpr ⟨hm2, h2⟩⟩
            · simp only [List.length_cons, List.length_append]
              omega
          | none =>
            rw [removeNotes_nomatch (Or.inr hm)] at hdec
            cases w with
            | nil =>
              simp only [List.nil_append, List.cons.injEq] at hdec
              exact ⟨[], rest, by simp [hdec.1], by simp [noLF], by simp⟩
            | cons w0 w' =>
              simp only [List.cons_append, List.cons.injEq] at hdec
              rcases ih rest ht g w' v hdec.2 (noLF_cons.mp hn).2 with
                ⟨w₀, v₀, h1, h2, h3⟩
              refine ⟨c :: w₀, v₀, by rw [h1]; simp, ?_, by simp; omega⟩
              exact noLF_cons.mpr ⟨hdec.1 ▸ (noLF_cons.mp hn).1, h2⟩
        · rw [removeNotes_nomatch (Or.inl hc)] at hdec
          cases w with
          | nil =>
            simp only [List.nil_append, List.cons.injEq] at hdec
            exact ⟨[], rest, by simp [hdec.1], by simp [noLF], by simp⟩
          | cons w0 w' =>
            simp only [List.cons_append, List.cons.injEq] at hdec
            rcases ih rest ht g w' v hdec.2 (noLF_cons.mp hn).2 with
              ⟨w₀, v₀, h1, h2, h3⟩
            refine ⟨c :: w₀, v₀, by rw [h1]; simp, ?_, by simp; omega⟩
            exact noLF_cons.mpr ⟨hdec.1 ▸ (noLF_cons.mp hn).1, h2⟩
  exact fun t => aux t.length t le_rfl

theorem removeNotes_span_pullback :
    ∀ t : List Char, SpanBadRuby (removeNotes t) → SpanBadRuby t := by
  have aux : ∀ N (t : List Char), t.length ≤ N →
      SpanBadRuby (removeNotes t) → SpanBadRuby t := by
    intro N
    induction N with
    | zero =>
      intro t ht h
      have : t = [] := List.length_eq_zero.mp (Nat.le_zero.mp ht)
      subst this
      rw [removeNotes_nil] at h
      exact absurd h spanBad_nil
    | succ N ih =>
      intro t ht h
      cases t with
      | nil =>
        rw [removeNotes_nil] at h
        exact absurd h spanBad_nil
      | cons c rest =>
        simp only [List.length_cons, Nat.succ_le_succ_iff] at ht
        by_cases hc : c = '［'
        · cases hm : noteMatchEnd rest with
          | some rem =>
            subst hc
            rw [removeNotes_match hm] at h
            have hlen := noteMatchEnd_length hm
            have hrem := ih rem (by omega) h
            rcases noteMatchEnd_decomp hm with ⟨m, hm1, _⟩
            rw [hm1, show '［' :: (m ++ rem) = ('［' :: m) ++ rem from by simp]
            exact spanBad_append_left hrem
          | none =>
            rw [removeNotes_nomatch (Or.inr hm)] at h
            rcases spanBad_cons_elim h with ⟨hceq, w, v, hdec, hw, hn⟩ | h2
            · rcases removeNotes_prefix_pullback rest '》' w v hdec hn with
                ⟨w₀, v₀, h1, h2, h3⟩
              have hw₀ : w₀ ≠ [] := by
                intro h0
                subst h0
                simp at h3
                exact hw h3
              exact ⟨[], w₀, v₀, by rw [h1, hceq]; simp, hw₀, h2⟩
            · exact spanBad_cons (ih rest ht h2)
        · rw [removeNotes_nomatch (Or.inl hc)] at h
          rcases spanBad_cons_elim h with ⟨hceq, w, v, hdec, hw, hn⟩ | h2
          · rcases removeNotes_prefix_pullback rest '》' w v hdec hn with
              ⟨w₀, v₀, h1, h2, h3⟩
            have hw₀ : w₀ ≠ [] := by
              intro h0
              subst h0
              simp at h3
              exact hw h3
            exact ⟨[], w₀, v₀, by rw [h1, hceq]; simp, hw₀, h2⟩
          · exact spanBad_cons (ih rest ht h2)
  exact fun t => aux t.length t le_rfl

theorem removeIdeo_cons_ideo {t : List Char} :
    removeIdeo (ideographicSpace :: t) = removeIdeo t := by
  simp [removeIdeo, List.filter_cons]

theorem removeIdeo_cons_ne {c : Char} {t : List Char}
    (h : c ≠ ideographicSpace) :
    removeIdeo (c :: t) = c :: removeIdeo t := by
  simp [removeIdeo, List.filter_cons, h]

theorem removeIdeo_prefix_pullback :
    ∀ t : List Char, ∀ (g : Char) (w v : List Char),
      removeIdeo t = w ++ g :: v → noLF w →
      ∃ w₀ v₀, t = w₀ ++ g :: v₀ ∧ noLF w₀ ∧ w.length ≤ w₀.length := by
  intro t
  induction t with
  | nil =>
    intro g w v hdec _
    exact absurd hdec.symm (by simp [removeIdeo])
  | cons c t' ih =>
    intro g w v hdec hn
    by_cases hcid : c = ideographicSpace
    · subst hcid
      rw [removeIdeo_cons_ideo] at hdec
      rcases ih g w v hdec hn with ⟨w₀, v₀, h1, h2, h3⟩
      refine ⟨ideographicSpace :: w₀, v₀, by rw [h1]; simp, ?_, by simp; omega⟩
      exact noLF_cons.mpr ⟨by decide, h2⟩
    · rw [removeIdeo_cons_ne hcid] at hdec
      cases w with
      | nil =>
        simp only [List.nil_append, List.cons.injEq] at hdec
        exact ⟨[], t', by simp [hdec.1], by simp [noLF], by simp⟩
      | cons w0 w' =>
        simp only [List.cons_append, List.cons.injEq] at hdec
        rcases ih g w' v hdec.2 (noLF_cons.mp hn).2 with ⟨w₀, v₀, h1, h2, h3⟩
        refine ⟨c :: w₀, v₀, by rw [h1]; simp, ?_, by simp; omega⟩
        exact noLF_cons.mpr ⟨hdec.1 ▸ (noLF_cons.mp hn).1, h2⟩

theorem removeIdeo_span_pullback :
    ∀ t : List Char, SpanBadRuby (removeIdeo t) → SpanBadRuby t := by
  intro t
  induction t with
  | nil =>
    intro h
    exact absurd (by simpa [removeIdeo] using h) spanBad_nil
  | cons c t' ih =>
    intro h
    by_cases hcid : c = ideographicSpace
    · subst hcid
      rw [removeIdeo_cons_ideo] at h
      exact spanBad_cons (ih h)
    · rw [removeIdeo_cons_ne hcid] at h
      rcases spanBad_cons_elim h with ⟨hceq, w, v, hdec, hw, hn⟩ | h2
      · rcases removeIdeo_prefix_pullback t' '》' w v hdec hn with
          ⟨w₀, v₀, h1, h2, h3⟩
        have hw₀ : w₀ ≠ [] := by
          intro h0
          subst h0
          simp at h3
          exact hw h3
        exact ⟨[], w₀, v₀, by rw [h1, hceq]; simp, hw₀, h2⟩
      · exact spanBad_cons (ih h2)

theorem crlf_cons2_pos {rest : List Char} :
    crlf ('\r' :: '\n' :: rest) = '\n' :: crlf rest := by
  simp [crlf]

theorem crlf_cons2_neg {a b : Char} {rest : List Char}
    (h : ¬(a = '\r' ∧ b = '\n')) :
    crlf (a :: b :: rest) = a :: crlf (b :: rest) := by
  simp [crlf, h]

theorem crlf_prefix_pullback :
    ∀ t : List Char, ∀ (g : Char) (w v : List Char), g ≠ '\n' →
      crlf t = w ++ g :: v → noLF w → ∃ v₀, t = w ++ g :: v₀ := by
  have aux : ∀ N (t : List Char), t.length ≤ N →
      ∀ (g : Char) (w v : List Char), g ≠ '\n' →
      crlf t = w ++ g :: v → noLF w → ∃ v₀, t = w ++ g :: v₀ := by
    intro N
    induction N with
    | zero =>
      intro t ht g w v _ hdec _
      have : t = [] := List.length_eq_zero.mp (Nat.le_zero.mp ht)
      subst this
      exact absurd hdec.symm (by simp [crlf])
    | succ N ih =>
      intro t ht g w v hg hdec hn
      match t with
      | [] => exact absurd hdec.symm (by simp [crlf])
      | [d] =>
        rw [show crlf [d] = [d] from rfl] at hdec
        cases w with
        | nil =>
          simp only [List.nil_append, List.cons.injEq] at hdec
          exact ⟨[], by simp [hdec.1]⟩
        | cons w0 w' =>
          simp only [List.cons_append, List.cons.injEq] at hdec
          exact absurd hdec.2.symm (by simp)
      | a :: b :: rest =>
        simp only [List.length_cons] at ht
        by_cases hab : a = '\r' ∧ b = '\n'
        · rw [hab.1, hab.2, crlf_cons2_pos] at hdec
          cases w with
          | nil =>
            simp only [List.nil_append, List.cons.injEq] at hdec
            exact absurd hdec.1.symm hg
          | cons w0 w' =>
            simp only [List.cons_append, List.cons.injEq] at hdec
            exact absurd hdec.1.symm (noLF_cons.mp hn).1
        · rw [crlf_cons2_neg hab] at hdec
          cases w with
          | nil =>
            simp only [List.nil_append, List.cons.injEq] at hdec
            exact ⟨b :: rest, by simp [hdec.1]⟩
          | cons w0 w' =>
            simp only [List.cons_append, List.cons.injEq] at hdec
            rcases ih (b :: rest) (by simp; omega) g w' v hg hdec.2
                (noLF_cons.mp hn).2 with ⟨v₀, h1⟩
            exact ⟨v₀, by rw [hdec.1, h1]; simp⟩
  exact fun t => aux t.length t le_rfl

theorem crlf_span_pullback :
    ∀ t : List Char, SpanBadRuby (crlf t) → SpanBadRuby t := by
  have aux : ∀ N (t : List Char), t.length ≤ N →
      SpanBadRuby (crlf t) → SpanBadRuby t := by
    intro N
    induction N with
    | zero =>
      intro t ht h
      have : t = [] := List.length_eq_zero.mp (Nat.le_zero.mp ht)
      subst this
      exact absurd h spanBad_nil
    | succ N ih =>
      intro t ht h
      match t with
      | [] => exact absurd h spanBad_nil
      | [d] => exact h
      | a :: b :: rest =>
        simp only [List.length_cons] at ht
        by_cases hab : a = '\r' ∧ b = '\n'
        · rw [hab.1, hab.2, crlf_cons2_pos] at h
          rcases spanBad_cons_elim h with ⟨hceq, _⟩ | h2
          · exact absurd hceq (by decide)
          · rw [hab.1, hab.2]
            exact spanBad_cons (spanBad_cons (ih rest (by omega) h2))
        · rw [crlf_cons2_neg hab] at h
          rcases spanBad_cons_elim h with ⟨hceq, w, v, hdec, hw, hn⟩ | h2
          · rcases crlf_prefix_pullback (b :: rest) '》' w v (by decide)
                hdec hn with ⟨v₀, h1⟩
            exact ⟨[], w, v₀, by rw [h1, hceq]; simp, hw, hn⟩
          · exact spanBad_cons (ih (b :: rest) (by simp; omega) h2)
  exact fun t => aux t.length t le_rfl

theorem collapseLF_head_run (rest : List Char) :
    ∃ Y, collapseLF ('\n' :: rest) = '\n' :: Y := by
  rw [collapseLF_cons_lf]
  by_cases h3 : 3 ≤ (countLF ('\n' :: rest)).1
  · rw [if_pos h3]
    exact ⟨'\n' :: collapseLF (countLF ('\n' :: rest)).2, rfl⟩
  · rw [if_neg h3]
    have hpos : 1 ≤ (countLF ('\n' :: rest)).1 := countLF_pos
    obtain ⟨k, hk⟩ : ∃ k, (countLF ('\n' :: rest)).1 = k + 1 :=
      ⟨(countLF ('\n' :: rest)).1 - 1, by omega⟩
    rw [hk]
    exact ⟨List.replicate k '\n' ++ collapseLF (countLF ('\n' :: rest)).2,
      by simp [List.replicate_succ]⟩

theorem collapseLF_prefix_pullback :
    ∀ t : List Char, ∀ (g : Char) (w v : List Char), g ≠ '\n' →
      collapseLF t = w ++ g :: v → noLF w → ∃ v₀, t = w ++ g :: v₀ := by
  have aux : ∀ N (t : List Char), t.length ≤ N →
      ∀ (g : Char) (w v : List Char), g ≠ '\n' →
      collapseLF t = w ++ g :: v → noLF w → ∃ v₀, t = w ++ g :: v₀ := by
    intro N
    induction N with
    | zero =>
      intro t ht g w v _ hdec _
      have : t = [] := List.length_eq_zero.mp (Nat.le_zero.mp ht)
      subst this
      exact absurd hdec.symm (by simp [collapseLF_nil])
    | succ N ih =>
      intro t ht g w v hg hdec hn
      cases t with
      | nil => exact absurd hdec.symm (by simp [collapseLF_nil])
      | cons c rest =>
        simp only [List.length_cons, Nat.succ_le_succ_iff] at ht
        by_cases hc : c = '\n'
        · subst hc
          rcases collapseLF_head_run rest with ⟨Y, hY⟩
          rw [hY] at hdec
          cases w with
          | nil =>
            simp only [List.nil_append, List.cons.injEq] at hdec
            exact absurd hdec.1.symm hg
          | cons w0 w' =>
            simp only [List.cons_append, List.cons.injEq] at hdec
            exact absurd hdec.1.symm (noLF_cons.mp hn).1
        · rw [collapseLF_cons_ne hc] at hdec
          cases w with
          | nil =>
            simp only [List.nil_append, List.cons.injEq] at hdec
            exact ⟨rest, by simp [hdec.1]⟩
          | cons w0 w' =>
            simp only [List.cons_append, List.cons.injEq] at hdec
            rcases ih rest ht g w' v hg hdec.2 (noLF_cons.mp hn).2 with ⟨v₀, h1⟩
            exact ⟨v₀, by rw [hdec.1, h1]; simp⟩
  exact fun t => aux t.length t le_rfl

theorem spanBad_peel_lfrun :
    ∀ (e : Nat) (X : List Char),
      SpanBadRuby (List.replicate e '\n' ++ X) → SpanBadRuby X := by
  intro e
  induction e with
  | zero => intro X h; simpa using h
  | succ k ih =>
    intro X h
    rw [show List.replicate (k + 1) '\n' ++ X =
          '\n' :: (List.replicate k '\n' ++ X) from by simp [List.replicate_succ]]
      at h
    rcases spanBad_cons_elim h with ⟨hceq, _⟩ | h2
    · exact absurd hceq (by decide)
    · exact ih X h2

theorem collapseLF_span_pullback :
    ∀ t : List Char, SpanBadRuby (collapseLF t) → SpanBadRuby t := by
  have aux : ∀ N (t : List Char), t.length ≤ N →
      SpanBadRuby (collapseLF t) → SpanBadRuby t := by
    intro N
    induction N with
    | zero =>
      intro t ht h
      have : t = [] := List.length_eq_zero.mp (Nat.le_zero.mp ht)
      subst this
      rw [collapseLF_nil] at h
      exact absurd h spanBad_nil
    | succ N ih =>
      intro t ht h
      cases t with
      | nil =>
        rw [collapseLF_nil] at h
        exact absurd h spanBad_nil
      | cons c rest =>
        simp only [List.length_cons, Nat.succ_le_succ_iff] at ht
        by_cases hc : c = '\n'
        · subst hc
          rw [collapseLF_cons_lf] at h
          have hpad : ∃ e, (if 3 ≤ (countLF ('\n' :: rest)).1 then ['\n', '\n']
              else List.replicate (countLF ('\n' :: rest)).1 '\n') =
              List.replicate e '\n' := by
            by_cases h3 : 3 ≤ (countLF ('\n' :: rest)).1
            · exact ⟨2, by rw [if_pos h3]; rfl⟩
            · exact ⟨(countLF ('\n' :: rest)).1, by rw [if_neg h3]⟩
          rcases hpad with ⟨e, he⟩
          rw [he] at h
          have h2 := spanBad_peel_lfrun e _ h
          have hpos : 1 ≤ (countLF ('\n' :: rest)).1 := countLF_pos
          have hL := countLF_length ('\n' :: rest)
          have h4 := ih (countLF ('\n' :: rest)).2
            (by simp only [List.length_cons] at hL; omega) h2
          have hdec := countLF_decomp ('\n' :: rest)
          rw [← hdec]
          exact spanBad_append_left h4
        · rw [collapseLF_cons_ne hc] at h
          rcases spanBad_cons_elim h with ⟨hceq, w, v, hdec, hw, hn⟩ | h2
          · rcases collapseLF_prefix_pullback rest '》' w v (by decide)
                hdec hn with ⟨v₀, h1⟩
            exact ⟨[], w, v₀, by rw [h1, hceq]; simp, hw, hn⟩
          · exact spanBad_cons (ih rest ht h2)
  exact fun t => aux t.length t le_rfl

theorem pyStrip_span_pullback {l : List Char}
    (h : SpanBadRuby (pyStrip l)) : SpanBadRuby l := by
  have hd := pyStrip_decomp l
  rw [hd]
  exact spanBad_middle h

/-- The normalizer's output contains no well-formed ruby span at all. -/
theorem strip_ruby_span_free (s : List Char) :
    ¬ SpanBadRuby (stripRubyAndNotes s) := by
  intro h
  have h1 := pyStrip_span_pullback h
  have h2 := collapseLF_span_pullback _ h1
  have h3 := crlf_span_pullback _ h2
  have h4 := removeIdeo_span_pullback _ h3
  have h5 := removeNotes_span_pullback _ h4
  exact removeRuby_spanFree _ h5

/-- Counterexample to C3 as stated: the well-formed note span ［＃w］ occurs
in the input, yet the single left-to-right removal pass splices the same
span back together in the output (from ［＃w］z［［＃c］＃w］v the code
produces z［＃w］v). -/
theorem c3_counterexample_note_splice :
    containsSub ['［', '＃', 'w', '］']
        ['［', '＃', 'w', '］', 'z', '［', '［', '＃', 'c', '］', '＃', 'w', '］', 'v']
        = true ∧
      stripRubyAndNotes
        ['［', '＃', 'w', '］', 'z', '［', '［', '＃', 'c', '］', '＃', 'w', '］', 'v']
        = ['z', '［', '＃', 'w', '］', 'v'] ∧
      containsSub ['［', '＃', 'w', '］']
        (stripRubyAndNotes
          ['［', '＃', 'w', '］', 'z', '［', '［', '＃', 'c', '］', '＃', 'w', '］', 'v'])
        = true :=
  ⟨by decide, by decide, by decide⟩

/-- C3 (amended): every ruby span `《c》` with nonempty newline-free content
is absent from the normalizer's output (in particular every such span of the
input is removed and never reassembled), and on text without ruby or note
matches the two removal steps are the identity.  The corresponding absence
guarantee for ［＃…］ note spans is dropped: the single-pass removal can
splice a note span back together. -/
theorem c3_amended_span_removal :
    (∀ s c, c ≠ [] → noLF c →
        containsSub ('《' :: (c ++ ['》'])) (stripRubyAndNotes s) = false) ∧
      (∀ s, hasRuby s = false → removeRuby s = s) ∧
      (∀ s, hasNote s = false → removeNotes s = s) := by
  refine ⟨?_, fun s h => removeRuby_of_not_hasRuby h,
    fun s h => removeNotes_of_not_hasNote h⟩
  intro s c hc hn
  cases hb : containsSub ('《' :: (c ++ ['》'])) (stripRubyAndNotes s) with
  | false => rfl
  | true =>
    exfalso
    rcases containsSub_iff.mp hb with ⟨u, v, hdec⟩
    exact strip_ruby_span_free s ⟨u, c, v, by rw [hdec]; simp, hc, hn⟩

/-- Witness for C3 (amended) at concrete inputs. -/
theorem c3_amended_span_removal_witness :
    containsSub ['《', 'x', '》']
        (stripRubyAndNotes ['a', '《', 'x', '》', 'b']) = false ∧
      removeRuby ['a', 'b'] = ['a', 'b'] ∧
      removeNotes ['a', 'b'] = ['a', 'b'] :=
  ⟨c3_amended_span_removal.1 ['a', '《', 'x', '》', 'b'] ['x']
      (by decide) (by decide),
    c3_amended_span_removal.2.1 ['a', 'b'] (by decide),
    c3_amended_span_removal.2.2 ['a', 'b'] (by decide)⟩

/-! ### Identity of the cleaning steps on already-clean text (towards C7) -/

theorem containsSub_nil_pat : ∀ l : List Char, containsSub [] l = true := by
  intro l
  cases l <;> simp [containsSub, leadsWith]

theorem truncColophon_of_no_marker {l : List Char}
    (h : containsSub colMarker l = false) : truncColophon l = l := by
  induction l with
  | nil => rfl
  | cons c rest ih =>
    rw [containsSub_cons] at h
    rcases Bool.or_eq_false_iff.mp h with ⟨h1, h2⟩
    rw [truncColophon_cons_neg h1, ih h2]

theorem crlf_of_no_cr : ∀ l : List Char, (∀ c ∈ l, c ≠ '\r') → crlf l = l := by
  have aux : ∀ N (l : List Char), l.length ≤ N → (∀ c ∈ l, c ≠ '\r') →
      crlf l = l := by
    intro N
    induction N with
    | zero =>
      intro l hl _
      have : l = [] := List.length_eq_zero.mp (Nat.le_zero.mp hl)
      subst this
      rfl
    | succ N ih =>
      intro l hl hcr
      match l with
      | [] => rfl
      | [d] => rfl
      | a :: b :: rest =>
        have ha : a ≠ '\r' := hcr a (by simp)
        rw [crlf_cons2_neg (fun hab => ha hab.1)]
        rw [ih (b :: rest) (by simp at hl; simp; omega)
              (fun c hc => hcr c (by simp at hc ⊢; exact Or.inr hc))]
  exact fun l => aux l.length l le_rfl

theorem removeIdeo_of_not_mem {l : List Char}
    (h : ideographicSpace ∉ l) : removeIdeo l = l :=
  List.filter_eq_self.mpr (fun a ha => by
    simp only [Bool.not_eq_eq_eq_not, Bool.not_true, decide_eq_false_iff_not]
    intro he
    exact h (he ▸ ha))

theorem collapseLF_of_noTriple :
    ∀ l : List Char, containsSub ['\n', '\n', '\n'] l = false →
      collapseLF l = l := by
  have aux : ∀ N (l : List Char), l.length ≤ N →
      containsSub ['\n', '\n', '\n'] l = false → collapseLF l = l := by
    intro N
    induction N with
    | zero =>
      intro l hl _
      have : l = [] := List.length_eq_zero.mp (Nat.le_zero.mp hl)
      subst this
      rfl
    | succ N ih =>
      intro l hl h
      cases l with
      | nil => rfl
      | cons c rest =>
        simp only [List.length_cons, Nat.succ_le_succ_iff] at hl
        by_cases hc : c = '\n'
        · subst hc
          obtain ⟨k, q, hkq⟩ : ∃ k q, countLF ('\n' :: rest) = (k, q) :=
            ⟨_, _, rfl⟩
          have hdecomp : List.replicate k '\n' ++ q = '\n' :: rest := by
            have h0 := countLF_decomp ('\n' :: rest)
            rw [hkq] at h0
            exact h0
          have hpos : 1 ≤ k := by
            have h0 : 1 ≤ (countLF ('\n' :: rest)).1 := countLF_pos
            rw [hkq] at h0
            exact h0
          have hL : q.length + k = ('\n' :: rest).length := by
            have h0 := countLF_length ('\n' :: rest)
            rw [hkq] at h0
            exact h0
          have hk3 : ¬ 3 ≤ k := by
            intro h3
            obtain ⟨m, hm⟩ : ∃ m, k = 3 + m := ⟨k - 3, by omega⟩
            have hlead : leadsWith ['\n', '\n', '\n'] ('\n' :: rest) = true := by
              apply leadsWith_iff.mpr
              refine ⟨List.replicate m '\n' ++ q, ?_⟩
              rw [← hdecomp, hm, List.replicate_add]
              simp [List.replicate_succ]
            rw [containsSub_cons] at h
            rcases Bool.or_eq_false_iff.mp h with ⟨h1, _⟩
            rw [hlead] at h1
            exact absurd h1 (by decide)
          have hrest : containsSub ['\n', '\n', '\n'] q = false := by
            cases hb : containsSub ['\n', '\n', '\n'] q with
            | false => rfl
            | true =>
              have h1 := containsSub_append_right
                (u := List.replicate k '\n') hb
              rw [hdecomp] at h1
              rw [h1] at h
              exact absurd h (by decide)
          rw [collapseLF_cons_lf, hkq]
          dsimp only
          rw [if_neg hk3,
            ih q (by simp only [List.length_cons] at hL; omega) hrest, hdecomp]
        · rw [containsSub_cons] at h
          rcases Bool.or_eq_false_iff.mp h with ⟨_, h2⟩
          rw [collapseLF_cons_ne hc, ih rest hl h2]
  exact fun l => aux l.length l le_rfl

theorem splitHyphens_of_no_h5 :
    ∀ l : List Char, containsSub (List.replicate 5 '-') l = false →
      splitHyphens l = [l] := by
  have aux : ∀ N (l : List Char), l.length ≤ N →
      containsSub (List.replicate 5 '-') l = false → splitHyphens l = [l] := by
    intro N
    induction N with
    | zero =>
      intro l hl _
      have : l = [] := List.length_eq_zero.mp (Nat.le_zero.mp hl)
      subst this
      rfl
    | succ N ih =>
      intro l hl h
      cases l with
      | nil => rfl
      | cons c rest =>
        simp only [List.length_cons, Nat.succ_le_succ_iff] at hl
        by_cases hc : c = '-'
        · subst hc
          obtain ⟨k, q, hkq⟩ : ∃ k q, countHyphens ('-' :: rest) = (k, q) :=
            ⟨_, _, rfl⟩
          have hdecomp : List.replicate k '-' ++ q = '-' :: rest := by
            have h0 := countHyphens_decomp ('-' :: rest)
            rw [hkq] at h0
            exact h0
          have hpos : 1 ≤ k := by
            have h0 : 1 ≤ (countHyphens ('-' :: rest)).1 := countHyphens_pos
            rw [hkq] at h0
            exact h0
          have hL : q.length + k = ('-' :: rest).length := by
            have h0 := countHyphens_length ('-' :: rest)
            rw [hkq] at h0
            exact h0
          have hk5 : ¬ 5 ≤ k := by
            intro h5
            obtain ⟨m, hm⟩ : ∃ m, k = 5 + m := ⟨k - 5, by omega⟩
            have hlead : leadsWith (List.replicate 5 '-') ('-' :: rest)
                = true := by
              apply leadsWith_iff.mpr
              refine ⟨List.replicate m '-' ++ q, ?_⟩
              rw [← hdecomp, hm, List.replicate_add]
              simp [List.replicate_succ]
            rw [containsSub_cons] at h
            rcases Bool.or_eq_false_iff.mp h with ⟨h1, _⟩
            rw [hlead] at h1
            exact absurd h1 (by decide)
          have hrest : containsSub (List.replicate 5 '-') q = false := by
            cases hb : containsSub (List.replicate 5 '-') q with
            | false => rfl
            | true =>
              have h1 := containsSub_append_right
                (u := List.replicate k '-') hb
              rw [hdecomp] at h1
              rw [h1] at h
              exact absurd h (by decide)
          rw [splitHyphens_cons_hyphen, hkq]
          dsimp only
          rw [if_neg hk5,
            ih q (by simp only [List.length_cons] at hL; omega) hrest]
          simp [consHead, hdecomp]
        · rw [containsSub_cons] at h
          rcases Bool.or_eq_false_iff.mp h with ⟨_, h2⟩
          rw [splitHyphens_cons_ne hc, ih rest hl h2]
          simp [consHead]
  exact fun l => aux l.length l le_rfl

theorem frontMatter_of_no_h5 {l : List Char}
    (h : containsSub (List.replicate 5 '-') l = false) : frontMatter l = l := by
  have hs := splitHyphens_of_no_h5 l h
  simp [frontMatter, hs]

theorem dropWhile_eq_self_of_head {q : Char → Bool} {z : List Char}
    (h : ∀ c, z.head? = some c → q c = false) : z.dropWhile q = z := by
  cases z with
  | nil => rfl
  | cons c z' =>
    have hq := h c rfl
    exact List.dropWhile_cons_of_neg (by simp [hq])

theorem pyStrip_idem (l : List Char) : pyStrip (pyStrip l) = pyStrip l := by
  have hstep1 : (pyStrip l).dropWhile isPySpace = pyStrip l :=
    dropWhile_eq_self_of_head (fun c hc => pyStrip_head_clean hc)
  have hstep2 : (pyStrip l).reverse.dropWhile isPySpace = (pyStrip l).reverse := by
    have hrev : (pyStrip l).reverse =
        (l.dropWhile isPySpace).reverse.dropWhile isPySpace := by
      rw [show pyStrip l =
            ((l.dropWhile isPySpace).reverse.dropWhile isPySpace).reverse
            from rfl, List.reverse_reverse]
    rw [hrev]
    exact dropWhile_eq_self_of_head (fun c hc => dropWhile_head_not isPySpace _ c hc)
  rw [show pyStrip (pyStrip l) =
        (((pyStrip l).dropWhile isPySpace).reverse.dropWhile isPySpace).reverse
        from rfl, hstep1, hstep2, List.reverse_reverse]

/-! ### Fixed newline-free patterns pull back through collapsing -/

theorem leadsWith_collapseLF :
    ∀ (z pat : List Char), noLF pat → leadsWith pat (collapseLF z) = true →
      leadsWith pat z = true := by
  intro z
  induction z with
  | nil =>
    intro pat _ h
    rwa [collapseLF_nil] at h
  | cons c z' ih =>
    intro pat hn h
    by_cases hc : c = '\n'
    · subst hc
      rcases collapseLF_head_run z' with ⟨Y, hY⟩
      rw [hY] at h
      cases pat with
      | nil => rfl
      | cons p ps =>
        simp only [leadsWith, Bool.and_eq_true, decide_eq_true_eq] at h
        exact absurd h.1 (noLF_cons.mp hn).1
    · rw [collapseLF_cons_ne hc] at h
      cases pat with
      | nil => rfl
      | cons p ps =>
        simp only [leadsWith, Bool.and_eq_true, decide_eq_true_eq] at h ⊢
        exact ⟨h.1, ih ps (noLF_cons.mp hn).2 h.2⟩

theorem containsSub_peel_lfrun {p : Char} {ps : List Char} (hp : p ≠ '\n') :
    ∀ (e : Nat) (X : List Char),
      containsSub (p :: ps) (List.replicate e '\n' ++ X) = true →
      containsSub (p :: ps) X = true := by
  intro e
  induction e with
  | zero =>
    intro X h
    simpa using h
  | succ k ih =>
    intro X h
    rw [show List.replicate (k + 1) '\n' ++ X =
          '\n' :: (List.replicate k '\n' ++ X) from by simp [List.replicate_succ],
      containsSub_cons] at h
    have hl : leadsWith (p :: ps) ('\n' :: (List.replicate k '\n' ++ X)) = false :=
      leadsWith_head_ne (by simpa using Ne.symm hp)
    rw [hl] at h
    simp only [Bool.false_or] at h
    exact ih X h

theorem containsSub_collapseLF :
    ∀ (z pat : List Char), noLF pat → containsSub pat (collapseLF z) = true →
      containsSub pat z = true := by
  have aux : ∀ N (z : List Char), z.length ≤ N → ∀ pat, noLF pat →
      containsSub pat (collapseLF z) = true → containsSub pat z = true := by
    intro N
    induction N with
    | zero =>
      intro z hz pat _ h
      have : z = [] := List.length_eq_zero.mp (Nat.le_zero.mp hz)
      subst this
      rwa [collapseLF_nil] at h
    | succ N ih =>
      intro z hz pat hn h
      cases z with
      | nil => rwa [collapseLF_nil] at h
      | cons c z' =>
        simp only [List.length_cons, Nat.succ_le_succ_iff] at hz
        by_cases hc : c = '\n'
        · subst hc
          cases pat with
          | nil => exact containsSub_nil_pat _
          | cons p ps =>
            have hp : p ≠ '\n' := (noLF_cons.mp hn).1
            rw [collapseLF_cons_lf] at h
            have hpad : ∃ e, (if 3 ≤ (countLF ('\n' :: z')).1 then ['\n', '\n']
                else List.replicate (countLF ('\n' :: z')).1 '\n') =
                List.replicate e '\n' := by
              by_cases h3 : 3 ≤ (countLF ('\n' :: z')).1
              · exact ⟨2, by rw [if_pos h3]; rfl⟩
              · exact ⟨(countLF ('\n' :: z')).1, by rw [if_neg h3]⟩
            rcases hpad with ⟨e, he⟩
            rw [he] at h
            have h2 := containsSub_peel_lfrun hp e _ h
            have hpos : 1 ≤ (countLF ('\n' :: z')).1 := countLF_pos
            have hL := countLF_length ('\n' :: z')
            have h3 := ih (countLF ('\n' :: z')).2
              (by simp only [List.length_cons] at hL; omega) (p :: ps) hn h2
            rw [← countLF_decomp ('\n' :: z')]
            exact containsSub_append_right h3
        · rw [collapseLF_cons_ne hc, containsSub_cons] at h
          simp only [Bool.or_eq_true] at h
          rcases h with h1 | h1
          · rw [← collapseLF_cons_ne hc] at h1
            have h2 := leadsWith_collapseLF (c :: z') pat hn h1
            rw [containsSub_cons, h2]
            simp
          · have h2 := ih z' hz pat hn h1
            rw [containsSub_cons, h2]
            simp
  exact fun z pat => aux z.length z le_rfl pat

/-! ### Characterising the existence of a match (towards C7) -/

theorem rubyScan_decomp :
    ∀ z r : List Char, rubyScan z = some r →
      ∃ mid, z = mid ++ '》' :: r ∧ noLF mid := by
  intro z
  induction z with
  | nil => intro r h; simp [rubyScan] at h
  | cons c z' ih =>
    intro r h
    by_cases h1 : c = '》'
    · subst h1
      have hz : z' = r := by simpa [rubyScan] using h
      exact ⟨[], by simp [hz], by simp [noLF]⟩
    · by_cases h2 : c = '\n'
      · simp [rubyScan, h1, h2] at h
      · have hs : rubyScan z' = some r := by simpa [rubyScan, h1, h2] using h
        rcases ih r hs with ⟨mid, hm, hn⟩
        exact ⟨c :: mid, by simp [hm], noLF_cons.mpr ⟨h2, hn⟩⟩

theorem rubyScan_isSome_of_noLF :
    ∀ (mid v : List Char), noLF mid →
      (rubyScan (mid ++ '》' :: v)).isSome = true := by
  intro mid
  induction mid with
  | nil => intro v _; simp [rubyScan]
  | cons c mid' ih =>
    intro v hn
    by_cases h1 : c = '》'
    · simp [rubyScan, h1]
    · rw [List.cons_append, rubyScan_cons_skip h1 (noLF_cons.mp hn).1]
      exact ih v (noLF_cons.mp hn).2

theorem noteScan_isSome_of_noLF :
    ∀ (mid v : List Char), noLF mid →
      (noteScan (mid ++ '］' :: v)).isSome = true := by
  intro mid
  induction mid with
  | nil => intro v _; simp [noteScan]
  | cons c mid' ih =>
    intro v hn
    by_cases h1 : c = '］'
    · simp [noteScan, h1]
    · rw [List.cons_append,
        show noteScan (c :: (mid' ++ '］' :: v)) = noteScan (mid' ++ '］' :: v)
          from by simp [noteScan, h1, (noLF_cons.mp hn).1]]
      exact ih v (noLF_cons.mp hn).2

theorem hasRuby_decomp :
    ∀ l : List Char, hasRuby l = true →
      ∃ u d mid v, l = u ++ '《' :: d :: (mid ++ '》' :: v) ∧ d ≠ '\n' ∧
        noLF mid := by
  intro l
  induction l with
  | nil => intro h; simp [hasRuby] at h
  | cons c rest ih =>
    intro h
    simp only [hasRuby, Bool.or_eq_true, Bool.and_eq_true,
      decide_eq_true_eq] at h
    rcases h with ⟨hc, hsome⟩ | h2
    · subst hc
      cases rest with
      | nil => simp [rubyMatchEnd] at hsome
      | cons d r' =>
        have hd : d ≠ '\n' := by
          intro h0
          rw [h0] at hsome
          simp [rubyMatchEnd] at hsome
        have hscan : ∃ r, rubyScan r' = some r := by
          rw [show rubyMatchEnd (d :: r') = rubyScan r' from by
                simp [rubyMatchEnd, hd]] at hsome
          exact Option.isSome_iff_exists.mp hsome
        rcases hscan with ⟨r, hr⟩
        rcases rubyScan_decomp r' r hr with ⟨mid, hm, hn⟩
        exact ⟨[], d, mid, r, by simp [hm], hd, hn⟩
    · rcases ih h2 with ⟨u, d, mid, v, hdec, hd, hn⟩
      exact ⟨c :: u, d, mid, v, by simp [hdec], hd, hn⟩

theorem hasRuby_of_decomp :
    ∀ (u : List Char) (d : Char) (mid v : List Char), d ≠ '\n' → noLF mid →
      hasRuby (u ++ '《' :: d :: (mid ++ '》' :: v)) = true := by
  intro u
  induction u with
  | nil =>
    intro d mid v hd hn
    have hsome : (rubyMatchEnd (d :: (mid ++ '》' :: v))).isSome = true := by
      rw [show rubyMatchEnd (d :: (mid ++ '》' :: v)) =
            rubyScan (mid ++ '》' :: v) from by simp [rubyMatchEnd, hd]]
      exact rubyScan_isSome_of_noLF mid v hn
    simp [hasRuby, hsome]
  | cons u0 u' ih =>
    intro d mid v hd hn
    simp only [List.cons_append, hasRuby, Bool.or_eq_true]
    exact Or.inr (ih d mid v hd hn)

theorem hasNote_decomp :
    ∀ l : List Char, hasNote l = true →
      ∃ u d mid v, l = u ++ '［' :: '＃' :: d :: (mid ++ '］' :: v) ∧
        d ≠ '\n' ∧ noLF mid := by
  intro l
  induction l with
  | nil => intro h; simp [hasNote] at h
  | cons c rest ih =>
    intro h
    simp only [hasNote, Bool.or_eq_true, Bool.and_eq_true,
      decide_eq_true_eq] at h
    rcases h with ⟨hc, hsome⟩ | h2
    · subst hc
      match rest with
      | [] => simp [noteMatchEnd] at hsome
      | [e] => simp [noteMatchEnd] at hsome
      | e :: d :: r' =>
        have he : e = '＃' := by
          by_contra h0
          rw [show noteMatchEnd (e :: d :: r') = none from by
                simp [noteMatchEnd, h0]] at hsome
          simp at hsome
        subst he
        have hd : d ≠ '\n' := by
          intro h0
          rw [h0] at hsome
          simp [noteMatchEnd] at hsome
        have hscan : ∃ r, noteScan r' = some r := by
          rw [show noteMatchEnd ('＃' :: d :: r') = noteScan r' from by
                simp [noteMatchEnd, hd]] at hsome
          exact Option.isSome_iff_exists.mp hsome
        rcases hscan with ⟨r, hr⟩
        rcases noteScan_decomp r' r hr with ⟨mid, hm, hn⟩
        exact ⟨[], d, mid, r, by simp [hm], hd, hn⟩
    · rcases ih h2 with ⟨u, d, mid, v, hdec, hd, hn⟩
      exact ⟨c :: u, d, mid, v, by simp [hdec], hd, hn⟩

theorem hasNote_of_decomp :
    ∀ (u : List Char) (d : Char) (mid v : List Char), d ≠ '\n' → noLF mid →
      hasNote (u ++ '［' :: '＃' :: d :: (mid ++ '］' :: v)) = true := by
  intro u
  induction u with
  | nil =>
    intro d mid v hd hn
    have hsome : (noteMatchEnd ('＃' :: d :: (mid ++ '］' :: v))).isSome
        = true := by
      rw [show noteMatchEnd ('＃' :: d :: (mid ++ '］' :: v)) =
            noteScan (mid ++ '］' :: v) from by simp [noteMatchEnd, hd]]
      exact noteScan_isSome_of_noLF mid v hn
    simp [hasNote, hsome]
  | cons u0 u' ih =>
    intro d mid v hd hn
    simp only [List.cons_append, hasNote, Bool.or_eq_true]
    exact Or.inr (ih d mid v hd hn)

/-- A ruby match is witnessed by a fixed newline-free pattern: it occurs as
a substring, and any text containing that substring has a ruby match. -/
theorem hasRuby_containsSub {l : List Char} (h : hasRuby l = true) :
    ∃ pat, noLF pat ∧ containsSub pat l = true ∧
      (∀ x, containsSub pat x = true → hasRuby x = true) := by
  rcases hasRuby_decomp l h with ⟨u, d, mid, v, hdec, hd, hn⟩
  refine ⟨'《' :: d :: (mid ++ ['》']), ?_, ?_, ?_⟩
  · refine noLF_cons.mpr ⟨by decide, noLF_cons.mpr ⟨hd, ?_⟩⟩
    exact noLF_append.mpr ⟨hn, by simp [noLF]⟩
  · exact containsSub_iff.mpr ⟨u, v, by rw [hdec]; simp⟩
  · intro x hx
    rcases containsSub_iff.mp hx with ⟨u', v', hdec'⟩
    rw [show u' ++ ('《' :: d :: (mid ++ ['》'])) ++ v' =
          u' ++ '《' :: d :: (mid ++ '》' :: v') from by simp] at hdec'
    rw [hdec']
    exact hasRuby_of_decomp u' d mid v' hd hn

/-- A note match is witnessed by a fixed newline-free pattern. -/
theorem hasNote_containsSub {l : List Char} (h : hasNote l = true) :
    ∃ pat, noLF pat ∧ containsSub pat l = true ∧
      (∀ x, containsSub pat x = true → hasNote x = true) := by
  rcases hasNote_decomp l h with ⟨u, d, mid, v, hdec, hd, hn⟩
  refine ⟨'［' :: '＃' :: d :: (mid ++ ['］']), ?_, ?_, ?_⟩
  · refine noLF_cons.mpr ⟨by decide, noLF_cons.mpr ⟨by decide,
      noLF_cons.mpr ⟨hd, ?_⟩⟩⟩
    exact noLF_append.mpr ⟨hn, by simp [noLF]⟩
  · exact containsSub_iff.mpr ⟨u, v, by rw [hdec]; simp⟩
  · intro x hx
    rcases containsSub_iff.mp hx with ⟨u', v', hdec'⟩
    rw [show u' ++ ('［' :: '＃' :: d :: (mid ++ ['］'])) ++ v' =
          u' ++ '［' :: '＃' :: d :: (mid ++ '］' :: v') from by simp] at hdec'
    rw [hdec']
    exact hasNote_of_decomp u' d mid v' hd hn

/-! ### Idempotence (C7) -/

/-- Counterexample to C7 as stated: `a\r\r\nb` is free of every removed
marker pattern (hyphen runs, 底本：, ruby and note matches), yet the
normalizer is not idempotent on it — the single-pass CRLF replacement maps
it to `a\r\nb`, and a second application to `a\nb`. -/
theorem c7_counterexample_not_idempotent :
    (containsSub (List.replicate 5 '-') ['a', '\r', '\r', '\n', 'b'] = false ∧
        containsSub colMarker ['a', '\r', '\r', '\n', 'b'] = false ∧
        hasRuby ['a', '\r', '\r', '\n', 'b'] = false ∧
        hasNote ['a', '\r', '\r', '\n', 'b'] = false) ∧
      stripRubyAndNotes (stripRubyAndNotes ['a', '\r', '\r', '\n', 'b']) ≠
        stripRubyAndNotes ['a', '\r', '\r', '\n', 'b'] :=
  ⟨by decide, by decide⟩

/-- C7 (amended): the normalizer is idempotent on any text free of the
removed marker patterns that additionally contains no carriage return and
no ideographic space. -/
theorem c7_amended_idempotent (x : List Char)
    (h5 : containsSub (List.replicate 5 '-') x = false)
    (hcol : containsSub colMarker x = false)
    (hruby : hasRuby x = false)
    (hnote : hasNote x = false)
    (hcr : ∀ c ∈ x, c ≠ '\r')
    (hideo : ideographicSpace ∉ x) :
    stripRubyAndNotes (stripRubyAndNotes x) = stripRubyAndNotes x := by
  have hx : stripRubyAndNotes x = pyStrip (collapseLF x) := by
    rw [show stripRubyAndNotes x = pyStrip (collapseLF (crlf (removeIdeo
          (removeNotes (removeRuby (truncColophon (frontMatter x)))))))
          from rfl,
      frontMatter_of_no_h5 h5, truncColophon_of_no_marker hcol,
      removeRuby_of_not_hasRuby hruby, removeNotes_of_not_hasNote hnote,
      removeIdeo_of_not_mem hideo, crlf_of_no_cr x hcr]
  have hymem : ∀ c ∈ pyStrip (collapseLF x), c ∈ x ∨ c = '\n' := by
    intro c hc
    exact mem_collapseLF x c (mem_pyStrip hc)
  have hycr : ∀ c ∈ pyStrip (collapseLF x), c ≠ '\r' := by
    intro c hc
    rcases hymem c hc with h1 | h1
    · exact hcr c h1
    · rw [h1]
      decide
  have hyideo : ideographicSpace ∉ pyStrip (collapseLF x) := by
    intro hc
    rcases hymem _ hc with h1 | h1
    · exact hideo h1
    · exact absurd h1 (by decide)
  have htransfer : ∀ pat, noLF pat → containsSub pat x = false →
      containsSub pat (pyStrip (collapseLF x)) = false := by
    intro pat hn hfalse
    cases hb : containsSub pat (pyStrip (collapseLF x)) with
    | false => rfl
    | true =>
      have h2 := containsSub_collapseLF x pat hn (containsSub_pyStrip hb)
      rw [h2] at hfalse
      exact absurd hfalse (by decide)
  have hy5 : containsSub (List.replicate 5 '-') (pyStrip (collapseLF x))
      = false := htransfer _ (by decide) h5
  have hycol : containsSub colMarker (pyStrip (collapseLF x)) = false :=
    htransfer _ (by decide) hcol
  have hyruby : hasRuby (pyStrip (collapseLF x)) = false := by
    cases hb : hasRuby (pyStrip (collapseLF x)) with
    | false => rfl
    | true =>
      rcases hasRuby_containsSub hb with ⟨pat, hn, hcs, hback⟩
      have h1 := containsSub_collapseLF x pat hn (containsSub_pyStrip hcs)
      rw [hback x h1] at hruby
      exact absurd hruby (by decide)
  have hynote : hasNote (pyStrip (collapseLF x)) = false := by
    cases hb : hasNote (pyStrip (collapseLF x)) with
    | false => rfl
    | true =>
      rcases hasNote_containsSub hb with ⟨pat, hn, hcs, hback⟩
      have h1 := containsSub_collapseLF x pat hn (containsSub_pyStrip hcs)
      rw [hback x h1] at hnote
      exact absurd hnote (by decide)
  have hytriple : containsSub ['\n', '\n', '\n'] (pyStrip (collapseLF x))
      = false := by
    cases hb : containsSub ['\n', '\n', '\n'] (pyStrip (collapseLF x)) with
    | false => rfl
    | true =>
      have h1 := containsSub_pyStrip hb
      rw [collapseLF_noTriple x] at h1
      exact absurd h1 (by decide)
  rw [hx]
  rw [show stripRubyAndNotes (pyStrip (collapseLF x)) =
        pyStrip (collapseLF (crlf (removeIdeo (removeNotes (removeRuby
          (truncColophon (frontMatter (pyStrip (collapseLF x)))))))))
        from rfl,
    frontMatter_of_no_h5 hy5, truncColophon_of_no_marker hycol,
    removeRuby_of_not_hasRuby hyruby, removeNotes_of_not_hasNote hynote,
    removeIdeo_of_not_mem hyideo, crlf_of_no_cr _ hycr,
    collapseLF_of_noTriple _ hytriple, pyStrip_idem]

/-- Witness for C7 (amended) at a concrete clean input. -/
theorem c7_amended_idempotent_witness :
    stripRubyAndNotes (stripRubyAndNotes ['a', '\n', '\n', '\n', 'b']) =
      stripRubyAndNotes ['a', '\n', '\n', '\n', 'b'] :=
  c7_amended_idempotent ['a', '\n', '\n', '\n', 'b'] (by decide) (by decide)
    (by decide) (by decide) (by decide) (by decide)

end Aozora
